import Mathlib

/-!
Verification of the crony scheduler and its vendored crontab library.

The Go sources are shallowly embedded:
* `crontab.go` (Schedule, rangeSpec, listSpec, dayMatches, Next) over a
  minute-resolution model of Go `time.Time` in the proleptic Gregorian
  calendar with a fixed-offset location (DST is out of the spec's scope;
  the location tag is threaded through every constructed time exactly as
  the source passes `t.Location()`).
* `parse.go` (parseRangeSpec, parseListSpec, ParseSchedule, ParseEntry,
  ParseCrontab) over Lean strings.
* `crony.go` (executeCrontab, executeEntry) as explicit transition systems.

Machine integers are modelled as `Int`/`Nat`.  Go's `%` on integers is
truncated division; it agrees with Lean's `%` (`Int.emod`) whenever the
dividend is non-negative, which is the case at every `%` in the source
reachable with a positive step (Go panics on step 0; theorems about
evaluation therefore carry a well-formedness hypothesis `step ≥ 1`).
-/

/-! ## Calendar model: dates and times at minute resolution -/

/-- A Go `time.Time` truncated to minute resolution: the fields produced by
`t.Year()`, `t.Month()`, `t.Day()`, `t.Hour()`, `t.Minute()`. -/
structure DT where
  year : Int
  month : Nat
  day : Nat
  hour : Nat
  minute : Nat
deriving DecidableEq, Repr

/-- Leap year predicate of the Gregorian calendar, as in Go's `isLeap`. -/
def isLeap (y : Int) : Bool :=
  (y % 4 == 0 && y % 100 != 0) || y % 400 == 0

/-- Days in a month given the year's leap flag. -/
def daysInMonthL (leap : Bool) (m : Nat) : Nat :=
  match m with
  | 2 => if leap then 29 else 28
  | 4 => 30
  | 6 => 30
  | 9 => 30
  | 11 => 30
  | _ => 31

/-- Days in a month, as consumed by Go's `time.Date` normalization. -/
def daysInMonth (y : Int) (m : Nat) : Nat :=
  daysInMonthL (isLeap y) m

/-- Cumulative number of days strictly before month `m` in a year whose
leap flag is `leap`. -/
def daysBeforeMonth (leap : Bool) (m : Nat) : Nat :=
  let x : Nat := if leap then 1 else 0
  match m with
  | 1 => 0
  | 2 => 31
  | 3 => 59 + x
  | 4 => 90 + x
  | 5 => 120 + x
  | 6 => 151 + x
  | 7 => 181 + x
  | 8 => 212 + x
  | 9 => 243 + x
  | 10 => 273 + x
  | 11 => 304 + x
  | _ => 334 + x

/-- Days from the calendar's fixed origin to January 1 of year `y`
(proleptic Gregorian).  `/` on `Int` is Euclidean division, which agrees
with floor division for the positive literal divisors used here. -/
def daysBeforeYear (y : Int) : Int :=
  365 * y + (y - 1) / 4 - (y - 1) / 100 + (y - 1) / 400

/-- Absolute day number of a date. -/
def toDays (d : DT) : Int :=
  daysBeforeYear d.year + (daysBeforeMonth (isLeap d.year) d.month : Int) + (d.day : Int) - 1

/-- Absolute minute number of a minute-resolution time. -/
def toMin (d : DT) : Int :=
  (toDays d * 24 + (d.hour : Int)) * 60 + (d.minute : Int)

/-- Go `t.Weekday()` (Sunday = 0): day number mod 7.  January 1 of year 1
is a Monday in Go's calendar; `toDays ⟨1,1,1,0,0⟩ = 365 ≡ 1 (mod 7)`. -/
def weekdayOf (d : DT) : Int :=
  toDays d % 7

/-- The date and clock fields denote an actual instant. -/
def ValidDT (d : DT) : Prop :=
  1 ≤ d.month ∧ d.month ≤ 12 ∧ 1 ≤ d.day ∧ d.day ≤ daysInMonth d.year d.month ∧
    d.hour ≤ 23 ∧ d.minute ≤ 59

instance (d : DT) : Decidable (ValidDT d) := by
  unfold ValidDT; infer_instance

/-! ### Arithmetic facts about the day numbering -/

theorem isLeap_iff (y : Int) :
    isLeap y = true ↔ ((y % 4 = 0 ∧ ¬ y % 100 = 0) ∨ y % 400 = 0) := by
  unfold isLeap
  simp [Bool.or_eq_true, Bool.and_eq_true, beq_iff_eq, bne_iff_ne]

theorem daysBeforeYear_succ (y : Int) :
    daysBeforeYear (y + 1) = daysBeforeYear y + 365 + (if isLeap y then 1 else 0) := by
  by_cases h : isLeap y
  · rw [if_pos h]
    rw [isLeap_iff] at h
    unfold daysBeforeYear
    rcases h with ⟨h4, h100⟩ | h400
    · omega
    · omega
  · rw [if_neg h]
    rw [isLeap_iff] at h
    push_neg at h
    unfold daysBeforeYear
    rcases h with ⟨h1, h400⟩
    by_cases h4 : y % 4 = 0
    · have h100 := h1 h4
      omega
    · omega

theorem daysBeforeYear_mono {y z : Int} (h : y < z) :
    daysBeforeYear y < daysBeforeYear z := by
  unfold daysBeforeYear
  omega

theorem daysBeforeYear_mono_le {y z : Int} (h : y ≤ z) :
    daysBeforeYear y ≤ daysBeforeYear z := by
  unfold daysBeforeYear
  omega

theorem daysInMonthL_pos (leap : Bool) (m : Nat) : 1 ≤ daysInMonthL leap m := by
  unfold daysInMonthL
  split <;> first | omega | (split <;> omega)

theorem daysInMonthL_le (leap : Bool) (m : Nat) : daysInMonthL leap m ≤ 31 := by
  unfold daysInMonthL
  split <;> first | omega | (split <;> omega)

theorem daysBeforeMonth_add_daysInMonth (leap : Bool) {m : Nat} (h1 : 1 ≤ m) (h2 : m ≤ 11) :
    daysBeforeMonth leap m + daysInMonthL leap m = daysBeforeMonth leap (m + 1) := by
  interval_cases m <;> cases leap <;> rfl

theorem daysBeforeMonth_le_of_lt (leap : Bool) {m m' : Nat} (h1 : 1 ≤ m) (h : m < m')
    (h2 : m' ≤ 12) : daysBeforeMonth leap m + daysInMonthL leap m ≤ daysBeforeMonth leap m' := by
  have hm : m ≤ 11 := by omega
  interval_cases m <;> interval_cases m' <;> cases leap <;>
    simp [daysBeforeMonth, daysInMonthL]

theorem daysBeforeMonth_last (leap : Bool) {m : Nat} (h1 : 1 ≤ m) (h2 : m ≤ 12) :
    daysBeforeMonth leap m + daysInMonthL leap m ≤ 365 + (if leap then 1 else 0) := by
  interval_cases m <;> cases leap <;> simp [daysBeforeMonth, daysInMonthL]

theorem toDays_bounds {d : DT} (h : ValidDT d) :
    daysBeforeYear d.year ≤ toDays d ∧ toDays d < daysBeforeYear (d.year + 1) := by
  obtain ⟨h1, h2, h3, h4, h5, h6⟩ := h
  have hlast := daysBeforeMonth_last (isLeap d.year) h1 h2
  have hsucc := daysBeforeYear_succ d.year
  unfold daysInMonth at h4
  unfold toDays
  cases hb : isLeap d.year <;> rw [hb] at hlast hsucc h4 <;>
    simp at hlast hsucc <;> omega

/-- Lexicographic order on the date fields. -/
def dateLt (d e : DT) : Prop :=
  d.year < e.year ∨ (d.year = e.year ∧
    (d.month < e.month ∨ (d.month = e.month ∧ d.day < e.day)))

theorem toDays_lt_of_dateLt {d e : DT} (hd : ValidDT d) (he : ValidDT e)
    (h : dateLt d e) : toDays d < toDays e := by
  rcases h with hy | ⟨hy, hm | ⟨hm, hday⟩⟩
  · calc toDays d < daysBeforeYear (d.year + 1) := (toDays_bounds hd).2
    _ ≤ daysBeforeYear e.year := daysBeforeYear_mono_le (by omega)
    _ ≤ toDays e := (toDays_bounds he).1
  · obtain ⟨h1, h2, h3, h4, h5, h6⟩ := hd
    obtain ⟨g1, g2, g3, g4, g5, g6⟩ := he
    have hmono := daysBeforeMonth_le_of_lt (isLeap d.year) h1 hm (by omega)
    unfold daysInMonth at h4
    unfold toDays
    rw [hy] at *
    omega
  · unfold toDays
    rw [hy, hm]
    omega

theorem date_eq_of_toDays_eq {d e : DT} (hd : ValidDT d) (he : ValidDT e)
    (h : toDays d = toDays e) :
    d.year = e.year ∧ d.month = e.month ∧ d.day = e.day := by
  by_cases hy : d.year = e.year
  · by_cases hm : d.month = e.month
    · refine ⟨hy, hm, ?_⟩
      by_cases hday : d.day = e.day
      · exact hday
      · rcases Nat.lt_or_ge d.day e.day with hlt | hge
        · have := toDays_lt_of_dateLt hd he (Or.inr ⟨hy, Or.inr ⟨hm, hlt⟩⟩)
          omega
        · have hgt : e.day < d.day := by omega
          have := toDays_lt_of_dateLt he hd (Or.inr ⟨hy.symm, Or.inr ⟨hm.symm, hgt⟩⟩)
          omega
    · rcases Nat.lt_or_ge d.month e.month with hlt | hge
      · have := toDays_lt_of_dateLt hd he (Or.inr ⟨hy, Or.inl hlt⟩)
        omega
      · have hgt : e.month < d.month := by omega
        have := toDays_lt_of_dateLt he hd (Or.inr ⟨hy.symm, Or.inl hgt⟩)
        omega
  · rcases Int.lt_or_lt_of_ne hy with hlt | hlt
    · have := toDays_lt_of_dateLt hd he (Or.inl hlt)
      omega
    · have := toDays_lt_of_dateLt he hd (Or.inl hlt)
      omega

theorem toDays_le_of_toMin_le {d e : DT} (h : toMin d ≤ toMin e)
    (hd : ValidDT d) (he : ValidDT e) : toDays d ≤ toDays e := by
  obtain ⟨_, _, _, _, h5, h6⟩ := hd
  obtain ⟨_, _, _, _, g5, g6⟩ := he
  unfold toMin at h
  omega

theorem toMin_lt_of_toDays_lt {d e : DT} (h : toDays d < toDays e)
    (hd : ValidDT d) (he : ValidDT e) : toMin d < toMin e := by
  obtain ⟨_, _, _, _, h5, h6⟩ := hd
  obtain ⟨_, _, _, _, g5, g6⟩ := he
  unfold toMin
  omega

theorem dt_eq_of_toMin_eq {d e : DT} (hd : ValidDT d) (he : ValidDT e)
    (h : toMin d = toMin e) : d = e := by
  have hdays : toDays d = toDays e := by
    obtain ⟨_, _, _, _, h5, h6⟩ := hd
    obtain ⟨_, _, _, _, g5, g6⟩ := he
    unfold toMin at h
    omega
  obtain ⟨hy, hm, hday⟩ := date_eq_of_toDays_eq hd he hdays
  have hhm : d.hour = e.hour ∧ d.minute = e.minute := by
    obtain ⟨_, _, _, _, h5, h6⟩ := hd
    obtain ⟨_, _, _, _, g5, g6⟩ := he
    unfold toMin at h
    omega
  cases d; cases e
  simp_all

/-! ## crontab.go: fields, range specs, list specs, schedules -/

/-- Go `field`: static metadata for one of the five schedule columns. -/
structure field where
  min : Int
  max : Int
  name : String
deriving DecidableEq, Repr

def minuteField : field := ⟨0, 59, "minute"⟩
def hourField : field := ⟨0, 23, "hour"⟩
def dayField : field := ⟨1, 31, "day"⟩
def monthField : field := ⟨1, 12, "month"⟩
def weekdayField : field := ⟨0, 6, "weekday"⟩

/-- Go `rangeSpec`.  The Go field `end` is a Lean keyword and is rendered
`endv` here. -/
structure rangeSpec where
  start : Int
  endv : Int
  step : Int
deriving DecidableEq, Repr

/-- Go `rangeSpec.wildcard`. -/
def rangeSpec.wildcard (r : rangeSpec) (f : field) : Bool :=
  r.step == 1 && r.start == f.min && r.endv == f.max

/-- Go `rangeSpec.matches`: `r.start <= i && i <= r.end && (i-r.start)%r.step == 0`.
Go's `%` is truncated division; for the non-negative dividend guaranteed by
the first two conjuncts it agrees with Lean's `%` whenever `step ≠ 0`
(Go panics on `step = 0`; theorems about evaluation assume `1 ≤ step`). -/
def rangeSpec.matches (r : rangeSpec) (i : Int) : Bool :=
  decide (r.start ≤ i) && decide (i ≤ r.endv) && ((i - r.start) % r.step == 0)

/-- Go `rangeSpec.valid`: bounds check only (the source does not check `step`). -/
def rangeSpec.valid (r : rangeSpec) (f : field) : Bool :=
  decide (f.min ≤ r.start) && decide (r.start ≤ r.endv) && decide (r.endv ≤ f.max)

/-- Go `listSpec`. -/
abbrev listSpec := List rangeSpec

/-- Go `listSpec.wildcard`: `len(l) == 1 && l[0].wildcard(f)`. -/
def listSpec.wildcard (l : listSpec) (f : field) : Bool :=
  match l with
  | [r] => r.wildcard f
  | _ => false

/-- Go `listSpec.matches`: true iff some member range matches. -/
def listSpec.matches (l : listSpec) (i : Int) : Bool :=
  List.any l (fun r => r.matches i)

/-- Go `Schedule`. -/
structure Schedule where
  minute : listSpec
  hour : listSpec
  day : listSpec
  month : listSpec
  weekday : listSpec

/-- Go `Schedule.dayMatches`: if either the day or the weekday field is a
wildcard both must match, otherwise a match of either suffices. -/
def Schedule.dayMatches (s : Schedule) (d : DT) : Bool :=
  let dayWildcard := s.day.wildcard dayField
  let weekdayWildcard := s.weekday.wildcard weekdayField
  let dayM := s.day.matches (d.day : Int)
  let weekdayM := s.weekday.matches (weekdayOf d)
  if dayWildcard || weekdayWildcard then dayM && weekdayM
  else dayM || weekdayM

/-- An instant satisfies all five field constraints of the schedule
(the conjunction checked by one full pass of `Next`'s cascade). -/
def Schedule.matchesAt (s : Schedule) (d : DT) : Bool :=
  s.month.matches (d.month : Int) && s.dayMatches d &&
    s.hour.matches (d.hour : Int) && s.minute.matches (d.minute : Int)

/-- Well-formedness of a parsed range: the bounds invariant checked by
`rangeSpec.valid` plus a positive step (Go's evaluation panics on step 0,
and the parser defaults an absent step to 1). -/
def rangeWF (f : field) (r : rangeSpec) : Prop :=
  f.min ≤ r.start ∧ r.start ≤ r.endv ∧ r.endv ≤ f.max ∧ 1 ≤ r.step

def listWF (f : field) (l : listSpec) : Prop :=
  l ≠ [] ∧ ∀ r ∈ l, rangeWF f r

/-- A schedule every field of which holds at least one in-bounds range with
positive step: what a successful parse of a crontab line produces. -/
def ScheduleWF (s : Schedule) : Prop :=
  listWF minuteField s.minute ∧ listWF hourField s.hour ∧ listWF dayField s.day ∧
    listWF monthField s.month ∧ listWF weekdayField s.weekday

/-! ## crontab.go: the `Next` search loop -/

/-- A candidate constructed inside `Next`: a minute-resolution time plus the
location tag passed to every `time.Date` call (`t.Location()` in the source).
Candidates always carry zero seconds/sub-seconds. -/
structure CT where
  dt : DT
  loc : Nat
deriving DecidableEq, Repr

/-- A Go `time.Time` as received by `Next`: minute fields, an abstract
non-negative sub-minute part (seconds and below; `0` = exact minute), and
the location tag. -/
structure GoTime where
  dt : DT
  sub : Nat
  loc : Nat
deriving DecidableEq, Repr

/-- Go day-loop body: `Date(y, m, day, 0, 0, 0, 0, loc)` then `AddDate(0,0,1)`
(normalization rolls into the next month or year when the day overflows). -/
def dayStep (d : DT) : DT :=
  if d.day < daysInMonth d.year d.month then ⟨d.year, d.month, d.day + 1, 0, 0⟩
  else if d.month < 12 then ⟨d.year, d.month + 1, 1, 0, 0⟩
  else ⟨d.year + 1, 1, 1, 0, 0⟩

/-- Go month-loop body: `Date(y, m, 1, 0, 0, 0, 0, loc)` then `AddDate(0,1,0)`. -/
def monthStep (d : DT) : DT :=
  if d.month < 12 then ⟨d.year, d.month + 1, 1, 0, 0⟩ else ⟨d.year + 1, 1, 1, 0, 0⟩

/-- Go hour-loop body: `Date(y, m, day, hour, 0, 0, 0, loc)` then `Add(1h)`
(fixed-offset location, so adding an hour advances the clock by one hour). -/
def hourStep (d : DT) : DT :=
  if d.hour < 23 then ⟨d.year, d.month, d.day, d.hour + 1, 0⟩
  else dayStep ⟨d.year, d.month, d.day, 0, 0⟩

/-- Go minute increment: `Date(..., minute, 0, 0, loc)` then `Add(1min)`;
used both for the initial candidate and the minute-loop body. -/
def minuteStep (d : DT) : DT :=
  if d.minute < 59 then ⟨d.year, d.month, d.day, d.hour, d.minute + 1⟩
  else hourStep ⟨d.year, d.month, d.day, d.hour, 0⟩

/-- Go `for !s.month.matches(int(t.Month()))` loop.  Twelve iterations visit
every month, so fuel 12 is exact; `none` models the infinite loop reached
when no month ever matches (impossible for a well-formed schedule). -/
def monthLoopF (s : Schedule) : Nat → CT → Option CT
  | 0, _ => none
  | fuel + 1, c =>
    if s.month.matches (c.dt.month : Int) then some c
    else monthLoopF s fuel ⟨monthStep c.dt, c.loc⟩

/-- Go `for !s.dayMatches(t)` loop; `.inr` is `continue wrap` (the day rolled
over to 1), `.inl` a match.  `none` = fuel exhausted (never happens: a month
has at most 31 days). -/
def dayLoopF (s : Schedule) : Nat → CT → Option (CT ⊕ CT)
  | 0, _ => none
  | fuel + 1, c =>
    if s.dayMatches c.dt then some (.inl c)
    else
      let c2 : CT := ⟨dayStep c.dt, c.loc⟩
      if c2.dt.day = 1 then some (.inr c2) else dayLoopF s fuel c2

/-- Go `for !s.hour.matches(t.Hour())` loop; `.inr` is `continue wrap`
(the hour rolled over to 0). -/
def hourLoopF (s : Schedule) : Nat → CT → Option (CT ⊕ CT)
  | 0, _ => none
  | fuel + 1, c =>
    if s.hour.matches (c.dt.hour : Int) then some (.inl c)
    else
      let c2 : CT := ⟨hourStep c.dt, c.loc⟩
      if c2.dt.hour = 0 then some (.inr c2) else hourLoopF s fuel c2

/-- Go `for !s.minute.matches(t.Minute())` loop; `.inr` is `continue wrap`
(the minute rolled over to 0). -/
def minuteLoopF (s : Schedule) : Nat → CT → Option (CT ⊕ CT)
  | 0, _ => none
  | fuel + 1, c =>
    if s.minute.matches (c.dt.minute : Int) then some (.inl c)
    else
      let c2 : CT := ⟨minuteStep c.dt, c.loc⟩
      if c2.dt.minute = 0 then some (.inr c2) else minuteLoopF s fuel c2

/-- Go `t.Before(horizon)` for a zero-sub-second candidate against the
horizon (which keeps `t`'s sub-minute part). -/
def beforeH (c : CT) (h : GoTime) : Bool :=
  decide (toMin c.dt < toMin h.dt) || (decide (toMin c.dt = toMin h.dt) && decide (0 < h.sub))

/-- Go `t.AddDate(8, 0, 0)`: same calendar fields with the year advanced by 8,
normalized (Feb 29 can roll into Mar 1 when the target year is not leap). -/
def addYears8 (d : DT) : DT :=
  if d.day ≤ daysInMonth (d.year + 8) d.month then
    ⟨d.year + 8, d.month, d.day, d.hour, d.minute⟩
  else
    ⟨d.year + 8, d.month + 1, d.day - daysInMonth (d.year + 8) d.month, d.hour, d.minute⟩

/-- The horizon computed by `Next` before truncation: `t.AddDate(8,0,0)`,
keeping `t`'s sub-minute part and location. -/
def horizonOf (t : GoTime) : GoTime :=
  ⟨addYears8 t.dt, t.sub, t.loc⟩

/-- The initial candidate of `Next`: `t` truncated to its minute, plus one
minute. -/
def startCT (t : GoTime) : CT :=
  ⟨minuteStep t.dt, t.loc⟩

/-- The `wrap:` loop of `Next`, with outer fuel.  Results: `none` = fuel
exhausted or an inner loop diverged (never happens for well-formed inputs),
`some none` = horizon crossed, sentinel returned, `some (some c)` = match
found and returned. -/
def nextLoop (s : Schedule) (h : GoTime) : Nat → CT → Option (Option CT)
  | fuel, c =>
    if beforeH c h then
      match fuel with
      | 0 => none
      | fuel + 1 =>
      match monthLoopF s 12 c with
      | none => none
      | some c1 =>
        match dayLoopF s 40 c1 with
        | none => none
        | some (.inr c2) => nextLoop s h fuel c2
        | some (.inl c2) =>
          match hourLoopF s 25 c2 with
          | none => none
          | some (.inr c3) => nextLoop s h fuel c3
          | some (.inl c3) =>
            match minuteLoopF s 61 c3 with
            | none => none
            | some (.inr c4) => nextLoop s h fuel c4
            | some (.inl c4) => some (some c4)
    else some none

/-- Outer fuel for `Next`: strictly more than the number of minutes in the
8-year-and-a-day search window, so exhaustion is impossible (each `wrap`
iteration advances the candidate by at least one minute). -/
def NextFUEL : Nat := 5000000

def nextRun (s : Schedule) (t : GoTime) : Option (Option CT) :=
  nextLoop s (horizonOf t) NextFUEL (startCT t)

/-- Go's zero `time.Time`: January 1, year 1, 00:00:00 UTC (location tag 0). -/
def goZeroDT : DT := ⟨1, 1, 1, 0, 0⟩

def goZeroTime : GoTime := ⟨goZeroDT, 0, 0⟩

/-- Go `Schedule.Next`: the found candidate (with zero sub-minute part), or
the zero time when the horizon is crossed. -/
def Schedule.Next (s : Schedule) (t : GoTime) : GoTime :=
  match nextRun s t with
  | some (some c) => ⟨c.dt, 0, c.loc⟩
  | _ => goZeroTime

/-! ## Arithmetic of the candidate-advancing steps -/

theorem validDT_mk {y : Int} {m day h mi : Nat} (h1 : 1 ≤ m) (h2 : m ≤ 12) (h3 : 1 ≤ day)
    (h4 : day ≤ daysInMonth y m) (h5 : h ≤ 23) (h6 : mi ≤ 59) :
    ValidDT ⟨y, m, day, h, mi⟩ :=
  ⟨h1, h2, h3, h4, h5, h6⟩

theorem toDays_mk (y : Int) (m day h mi : Nat) :
    toDays ⟨y, m, day, h, mi⟩ =
      daysBeforeYear y + (daysBeforeMonth (isLeap y) m : Int) + (day : Int) - 1 := rfl

theorem toMin_mk (y : Int) (m day h mi : Nat) :
    toMin ⟨y, m, day, h, mi⟩ =
      (toDays ⟨y, m, day, h, mi⟩ * 24 + (h : Int)) * 60 + (mi : Int) := rfl

theorem daysInMonth_eq (y : Int) (m : Nat) : daysInMonth y m = daysInMonthL (isLeap y) m := rfl

theorem dayStep_shape (d : DT) : (dayStep d).hour = 0 ∧ (dayStep d).minute = 0 := by
  unfold dayStep
  split
  · exact ⟨rfl, rfl⟩
  · split
    · exact ⟨rfl, rfl⟩
    · exact ⟨rfl, rfl⟩

theorem dayStep_valid {d : DT} (h : ValidDT d) : ValidDT (dayStep d) := by
  obtain ⟨h1, h2, h3, h4, h5, h6⟩ := h
  unfold dayStep
  split
  · rename_i hsp
    rw [daysInMonth_eq] at hsp h4
    exact validDT_mk h1 h2 (by omega) (by rw [daysInMonth_eq]; omega) (by omega) (by omega)
  · split
    · refine validDT_mk (by omega) (by omega) (by omega) ?_ (by omega) (by omega)
      have := daysInMonthL_pos (isLeap d.year) (d.month + 1)
      rw [daysInMonth_eq]
      omega
    · refine validDT_mk (by omega) (by omega) (by omega) ?_ (by omega) (by omega)
      have := daysInMonthL_pos (isLeap (d.year + 1)) 1
      rw [daysInMonth_eq]
      omega

theorem toDays_dayStep {d : DT} (h : ValidDT d) : toDays (dayStep d) = toDays d + 1 := by
  obtain ⟨h1, h2, h3, h4, h5, h6⟩ := h
  rw [daysInMonth_eq] at h4
  rcases d with ⟨yy, mm, dd, hh, mi⟩
  dsimp only at h1 h2 h3 h4 h5 h6
  unfold dayStep
  split
  · simp only [toDays_mk]
    push_cast
    omega
  · rename_i hge
    dsimp only at hge
    rw [daysInMonth_eq] at hge
    have hdd : dd = daysInMonthL (isLeap yy) mm := by omega
    split
    · rename_i hmlt
      dsimp only at hmlt
      have hadd := daysBeforeMonth_add_daysInMonth (isLeap yy) h1 (by omega)
      simp only [toDays_mk]
      push_cast
      omega
    · rename_i hmge
      dsimp only at hmge
      have hm12 : mm = 12 := by omega
      subst hm12
      have hsucc := daysBeforeYear_succ yy
      have h31 : daysInMonthL (isLeap yy) 12 = 31 := rfl
      have h334 : (daysBeforeMonth (isLeap yy) 12 : Int) =
          334 + (if isLeap yy then 1 else 0) := by
        cases hb : isLeap yy <;> simp [daysBeforeMonth]
      have h0 : (daysBeforeMonth (isLeap (yy + 1)) 1 : Nat) = 0 := by
        cases hb : isLeap (yy + 1) <;> simp [daysBeforeMonth]
      simp only [toDays_mk, h0]
      cases hb : isLeap yy <;> rw [hb] at hsucc h334 <;> simp at hsucc h334 <;> push_cast <;> omega

theorem hourStep_spec {d : DT} (h : ValidDT d) :
    ValidDT (hourStep d) ∧
      toMin (hourStep d) = toDays d * 1440 + ((d.hour : Int) + 1) * 60 ∧
      (hourStep d).minute = 0 := by
  obtain ⟨h1, h2, h3, h4, h5, h6⟩ := h
  rcases d with ⟨yy, mm, dd, hh, mi⟩
  dsimp only at h1 h2 h3 h4 h5 h6 ⊢
  unfold hourStep
  split
  · rename_i hsp
    dsimp only at hsp
    show ValidDT ⟨yy, mm, dd, hh + 1, 0⟩ ∧
      toMin ⟨yy, mm, dd, hh + 1, 0⟩ =
        toDays ⟨yy, mm, dd, hh, mi⟩ * 1440 + ((hh : Int) + 1) * 60 ∧
      (0 : Nat) = 0
    refine ⟨validDT_mk h1 h2 h3 h4 (by omega) (by omega), ?_, rfl⟩
    simp only [toMin_mk, toDays_mk]
    push_cast
    omega
  · rename_i hsp
    dsimp only at hsp
    have h23 : hh = 23 := by omega
    show ValidDT (dayStep ⟨yy, mm, dd, 0, 0⟩) ∧
      toMin (dayStep ⟨yy, mm, dd, 0, 0⟩) =
        toDays ⟨yy, mm, dd, hh, mi⟩ * 1440 + ((hh : Int) + 1) * 60 ∧
      (dayStep ⟨yy, mm, dd, 0, 0⟩).minute = 0
    have hvmid : ValidDT ⟨yy, mm, dd, 0, 0⟩ := validDT_mk h1 h2 h3 h4 (by omega) (by omega)
    have hstep := toDays_dayStep hvmid
    have hshape := dayStep_shape ⟨yy, mm, dd, 0, 0⟩
    refine ⟨dayStep_valid hvmid, ?_, hshape.2⟩
    have htd : toDays (⟨yy, mm, dd, 0, 0⟩ : DT) = toDays ⟨yy, mm, dd, hh, mi⟩ := rfl
    rcases hds : dayStep ⟨yy, mm, dd, 0, 0⟩ with ⟨y2, m2, d2, hh2, mi2⟩
    rw [hds] at hstep hshape
    dsimp only at hshape
    simp only [toMin_mk]
    rw [hshape.1, hshape.2, htd] at *
    omega

theorem minuteStep_spec {d : DT} (h : ValidDT d) :
    ValidDT (minuteStep d) ∧ toMin (minuteStep d) = toMin d + 1 := by
  obtain ⟨h1, h2, h3, h4, h5, h6⟩ := h
  rcases d with ⟨yy, mm, dd, hh, mi⟩
  dsimp only at h1 h2 h3 h4 h5 h6
  unfold minuteStep
  split
  · rename_i hsp
    dsimp only at hsp
    show ValidDT ⟨yy, mm, dd, hh, mi + 1⟩ ∧
      toMin ⟨yy, mm, dd, hh, mi + 1⟩ = toMin ⟨yy, mm, dd, hh, mi⟩ + 1
    refine ⟨validDT_mk h1 h2 h3 h4 h5 (by omega), ?_⟩
    simp only [toMin_mk, toDays_mk]
    push_cast
    omega
  · rename_i hsp
    dsimp only at hsp
    have h59 : mi = 59 := by omega
    show ValidDT (hourStep ⟨yy, mm, dd, hh, 0⟩) ∧
      toMin (hourStep ⟨yy, mm, dd, hh, 0⟩) = toMin ⟨yy, mm, dd, hh, mi⟩ + 1
    have hvh : ValidDT ⟨yy, mm, dd, hh, 0⟩ := validDT_mk h1 h2 h3 h4 h5 (by omega)
    obtain ⟨hv, htm, hm0⟩ := hourStep_spec hvh
    refine ⟨hv, ?_⟩
    rw [htm]
    have htd : toDays (⟨yy, mm, dd, hh, 0⟩ : DT) = toDays ⟨yy, mm, dd, hh, mi⟩ := rfl
    rw [htd]
    simp only [toMin_mk]
    omega

theorem monthStep_shape (d : DT) :
    (monthStep d).day = 1 ∧ (monthStep d).hour = 0 ∧ (monthStep d).minute = 0 := by
  unfold monthStep
  split
  · exact ⟨rfl, rfl, rfl⟩
  · exact ⟨rfl, rfl, rfl⟩

theorem monthStep_eq_dayStep (d : DT) :
    monthStep d = dayStep ⟨d.year, d.month, daysInMonth d.year d.month, 0, 0⟩ := by
  unfold monthStep dayStep
  dsimp only
  rw [if_neg (lt_irrefl _)]

theorem lastDay_valid {d : DT} (h : ValidDT d) :
    ValidDT ⟨d.year, d.month, daysInMonth d.year d.month, 0, 0⟩ := by
  obtain ⟨h1, h2, h3, h4, h5, h6⟩ := h
  have hp := daysInMonthL_pos (isLeap d.year) d.month
  refine validDT_mk h1 h2 ?_ (by omega) (by omega) (by omega)
  rw [daysInMonth_eq]
  omega

theorem monthStep_valid {d : DT} (h : ValidDT d) : ValidDT (monthStep d) := by
  rw [monthStep_eq_dayStep]
  exact dayStep_valid (lastDay_valid h)

theorem toDays_monthStep {d : DT} (h : ValidDT d) :
    toDays (monthStep d) = toDays ⟨d.year, d.month, daysInMonth d.year d.month, 0, 0⟩ + 1 := by
  rw [monthStep_eq_dayStep]
  exact toDays_dayStep (lastDay_valid h)

theorem toMin_tod_zero {d : DT} (h0 : d.hour = 0) (h1 : d.minute = 0) :
    toMin d = toDays d * 1440 := by
  unfold toMin
  rw [h0, h1]
  push_cast
  ring

/-- A valid instant whose day number lies within a given month belongs to
that month. -/
theorem sameYM {e : DT} (he : ValidDT e) {y : Int} {m : Nat} (h1 : 1 ≤ m) (h2 : m ≤ 12)
    (hlo : toDays ⟨y, m, 1, 0, 0⟩ ≤ toDays e)
    (hhi : toDays e ≤ toDays ⟨y, m, daysInMonth y m, 0, 0⟩) :
    e.year = y ∧ e.month = m := by
  have hdpos := daysInMonthL_pos (isLeap y) m
  have hvlo : ValidDT ⟨y, m, 1, 0, 0⟩ :=
    validDT_mk h1 h2 (by omega) (by rw [daysInMonth_eq]; omega) (by omega) (by omega)
  have hvhi : ValidDT ⟨y, m, daysInMonth y m, 0, 0⟩ :=
    validDT_mk h1 h2 (by rw [daysInMonth_eq]; omega) (by omega) (by omega) (by omega)
  rcases lt_trichotomy e.year y with hy | hy | hy
  · have := toDays_lt_of_dateLt he hvlo (Or.inl hy)
    omega
  · rcases Nat.lt_trichotomy e.month m with hm | hm | hm
    · have := toDays_lt_of_dateLt he hvlo (Or.inr ⟨hy, Or.inl hm⟩)
      omega
    · exact ⟨hy, hm⟩
    · have := toDays_lt_of_dateLt hvhi he (Or.inr ⟨hy.symm, Or.inl hm⟩)
      omega
  · have := toDays_lt_of_dateLt hvhi he (Or.inl hy)
    omega

theorem month_locality {c e : DT} (hc : ValidDT c) (he : ValidDT e)
    (hlo : toMin c ≤ toMin e) (hhi : toMin e < toMin (monthStep c)) :
    e.year = c.year ∧ e.month = c.month := by
  have hms := toDays_monthStep hc
  have hsh := monthStep_shape c
  have htmz := toMin_tod_zero hsh.2.1 hsh.2.2
  obtain ⟨h1, h2, h3, h4, h5, h6⟩ := id hc
  obtain ⟨g1, g2, g3, g4, g5, g6⟩ := id he
  have hde : toDays c ≤ toDays e := by
    unfold toMin at hlo
    omega
  unfold toMin at hlo
  have hup : toDays e < toDays (monthStep c) := by
    rw [htmz] at hhi
    unfold toMin at hhi
    omega
  have hcl : toDays ⟨c.year, c.month, 1, 0, 0⟩ ≤ toDays c := by
    rcases c with ⟨yy, mm, dd, hh, mi⟩
    simp only [toDays_mk]
    dsimp only at h3
    omega
  have hcast : toDays c = toDays ⟨c.year, c.month, c.day, 0, 0⟩ := by
    rcases c with ⟨yy, mm, dd, hh, mi⟩
    rfl
  refine sameYM he h1 h2 (by omega) ?_
  omega

theorem toMin_dayStep {d : DT} (h : ValidDT d) :
    toMin (dayStep d) = (toDays d + 1) * 1440 := by
  have hsh := dayStep_shape d
  rw [toMin_tod_zero hsh.1 hsh.2, toDays_dayStep h]

theorem toMin_lt_dayStep {d : DT} (h : ValidDT d) : toMin d < toMin (dayStep d) := by
  have hds := toMin_dayStep h
  obtain ⟨h1, h2, h3, h4, h5, h6⟩ := h
  unfold toMin at hds ⊢
  omega

theorem day_locality {c e : DT} (hc : ValidDT c) (he : ValidDT e)
    (hlo : toMin c ≤ toMin e) (hhi : toMin e < toMin (dayStep c)) :
    e.year = c.year ∧ e.month = c.month ∧ e.day = c.day := by
  have hds := toMin_dayStep hc
  obtain ⟨h1, h2, h3, h4, h5, h6⟩ := id hc
  obtain ⟨g1, g2, g3, g4, g5, g6⟩ := id he
  have hde : toDays e = toDays c := by
    rw [hds] at hhi
    unfold toMin at hlo hhi
    omega
  exact date_eq_of_toDays_eq he hc hde

theorem hour_locality {c e : DT} (hc : ValidDT c) (he : ValidDT e)
    (hlo : toMin c ≤ toMin e)
    (hhi : toMin e < toDays c * 1440 + ((c.hour : Int) + 1) * 60) :
    e.year = c.year ∧ e.month = c.month ∧ e.day = c.day ∧ e.hour = c.hour := by
  obtain ⟨h1, h2, h3, h4, h5, h6⟩ := id hc
  obtain ⟨g1, g2, g3, g4, g5, g6⟩ := id he
  unfold toMin at hlo hhi
  have hde : toDays e = toDays c := by omega
  have hdd := date_eq_of_toDays_eq he hc hde
  refine ⟨hdd.1, hdd.2.1, hdd.2.2, ?_⟩
  omega

theorem minute_locality {c e : DT} (hc : ValidDT c) (he : ValidDT e)
    (hlo : toMin c ≤ toMin e) (hhi : toMin e < toMin c + 1) : e = c := by
  exact dt_eq_of_toMin_eq he hc (by omega)

theorem toMin_lt_monthStep {d : DT} (h : ValidDT d) : toMin d < toMin (monthStep d) := by
  have hms := toDays_monthStep h
  have hsh := monthStep_shape d
  have htmz := toMin_tod_zero hsh.2.1 hsh.2.2
  have hld := lastDay_valid h
  have hle : toDays d ≤ toDays ⟨d.year, d.month, daysInMonth d.year d.month, 0, 0⟩ := by
    obtain ⟨h1, h2, h3, h4, h5, h6⟩ := h
    rcases d with ⟨yy, mm, dd, hh, mi⟩
    simp only [toDays_mk]
    dsimp only at h4 ⊢
    omega
  obtain ⟨h1, h2, h3, h4, h5, h6⟩ := h
  rw [htmz]
  unfold toMin
  omega

theorem matchesAt_false_month {s : Schedule} {e : DT}
    (h : s.month.matches (e.month : Int) = false) : s.matchesAt e = false := by
  unfold Schedule.matchesAt
  rw [h]
  rfl

theorem matchesAt_false_day {s : Schedule} {e : DT}
    (h : s.dayMatches e = false) : s.matchesAt e = false := by
  unfold Schedule.matchesAt
  rw [h]
  simp

theorem matchesAt_false_hour {s : Schedule} {e : DT}
    (h : s.hour.matches (e.hour : Int) = false) : s.matchesAt e = false := by
  unfold Schedule.matchesAt
  rw [h]
  simp

theorem matchesAt_false_minute {s : Schedule} {e : DT}
    (h : s.minute.matches (e.minute : Int) = false) : s.matchesAt e = false := by
  unfold Schedule.matchesAt
  rw [h]
  simp

theorem dayMatches_congr (s : Schedule) {d e : DT} (hy : e.year = d.year)
    (hm : e.month = d.month) (hd : e.day = d.day) : s.dayMatches e = s.dayMatches d := by
  rcases d with ⟨yy, mm, dd, hh, mi⟩
  rcases e with ⟨y2, m2, d2, h2, mi2⟩
  dsimp only at hy hm hd
  subst hy hm hd
  rfl

/-! ## Correctness of the four inner loops -/

theorem monthLoopF_spec (s : Schedule) : ∀ (fuel : Nat) (c c1 : CT), ValidDT c.dt →
    monthLoopF s fuel c = some c1 →
    ValidDT c1.dt ∧ c1.loc = c.loc ∧ s.month.matches (c1.dt.month : Int) = true ∧
    toMin c.dt ≤ toMin c1.dt ∧
    (∀ e : DT, ValidDT e → toMin c.dt ≤ toMin e → toMin e < toMin c1.dt →
      s.matchesAt e = false) ∧
    (c1 = c ∨ (c1.dt.day = 1 ∧ c1.dt.hour = 0 ∧ c1.dt.minute = 0)) := by
  intro fuel
  induction fuel with
  | zero => intro c c1 _ h; exact absurd h (by simp [monthLoopF])
  | succ n ih =>
    intro c c1 hv h
    unfold monthLoopF at h
    by_cases hm : s.month.matches (c.dt.month : Int)
    · rw [if_pos hm] at h
      injection h with h
      subst h
      exact ⟨hv, rfl, hm, le_refl _, fun e _ hlo hhi => absurd hhi (by omega), Or.inl rfl⟩
    · rw [if_neg hm] at h
      have hv2 : ValidDT (monthStep c.dt) := monthStep_valid hv
      obtain ⟨hva, hloc, hmm, hle, hskip, hsh⟩ := ih ⟨monthStep c.dt, c.loc⟩ c1 hv2 h
      have hstep := toMin_lt_monthStep hv
      refine ⟨hva, hloc, hmm, by dsimp only at hle; omega, ?_, ?_⟩
      · intro e hev hlo hhi
        dsimp only at hskip hle
        by_cases hin : toMin e < toMin (monthStep c.dt)
        · obtain ⟨hy, hmo⟩ := month_locality hv hev hlo hin
          apply matchesAt_false_month
          rw [hmo]
          simpa using hm
        · exact hskip e hev (by omega) hhi
      · rcases hsh with heq | hsh
        · right
          rw [heq]
          exact monthStep_shape c.dt
        · exact Or.inr hsh

theorem dayLoopF_spec (s : Schedule) : ∀ (fuel : Nat) (c : CT) (r : CT ⊕ CT),
    ValidDT c.dt → dayLoopF s fuel c = some r →
    ValidDT (Sum.elim id id r).dt ∧ (Sum.elim id id r).loc = c.loc ∧
    toMin c.dt ≤ toMin (Sum.elim id id r).dt ∧
    (∀ e : DT, ValidDT e → toMin c.dt ≤ toMin e → toMin e < toMin (Sum.elim id id r).dt →
      s.matchesAt e = false) ∧
    (∀ x : CT, r = .inl x → s.dayMatches x.dt = true ∧ x.dt.year = c.dt.year ∧
      x.dt.month = c.dt.month ∧ (x = c ∨ (x.dt.hour = 0 ∧ x.dt.minute = 0))) ∧
    (∀ x : CT, r = .inr x → x.dt.day = 1 ∧ x.dt.hour = 0 ∧ x.dt.minute = 0 ∧
      toMin c.dt < toMin x.dt) := by
  intro fuel
  induction fuel with
  | zero => intro c r _ h; exact absurd h (by simp [dayLoopF])
  | succ n ih =>
    intro c r hv h
    unfold dayLoopF at h
    by_cases hm : s.dayMatches c.dt
    · rw [if_pos hm] at h
      injection h with h
      subst h
      refine ⟨hv, rfl, le_refl _,
        fun e _ hlo hhi => absurd (lt_of_le_of_lt hlo hhi) (lt_irrefl _), ?_, ?_⟩
      · intro x hx
        injection hx with hx
        subst hx
        exact ⟨hm, rfl, rfl, Or.inl rfl⟩
      · intro x hx
        cases hx
    · rw [if_neg hm] at h
      have hv2 : ValidDT (dayStep c.dt) := dayStep_valid hv
      have hstep := toMin_lt_dayStep hv
      have hsh := dayStep_shape c.dt
      have hmfalse : s.dayMatches c.dt = false := by
        cases hmb : s.dayMatches c.dt
        · rfl
        · exact absurd hmb hm
      by_cases hday : (dayStep c.dt).day = 1
      · rw [if_pos hday] at h
        injection h with h
        subst h
        refine ⟨hv2, rfl, le_of_lt hstep, ?_, ?_, ?_⟩
        · intro e hev hlo hhi
          obtain ⟨hy, hmo, hd⟩ := day_locality hv hev hlo hhi
          apply matchesAt_false_day
          rw [dayMatches_congr s hy hmo hd]
          exact hmfalse
        · intro x hx
          cases hx
        · intro x hx
          injection hx with hx
          subst hx
          exact ⟨hday, hsh.1, hsh.2, hstep⟩
      · rw [if_neg hday] at h
        obtain ⟨hva, hloc, hle, hskip, hinl, hinr⟩ := ih ⟨dayStep c.dt, c.loc⟩ r hv2 h
        dsimp only at hva hloc hle hskip
        have hym : (dayStep c.dt).year = c.dt.year ∧ (dayStep c.dt).month = c.dt.month := by
          unfold dayStep at hday ⊢
          split
          · exact ⟨rfl, rfl⟩
          · rename_i hlt
            split
            · rename_i hmo
              rw [if_neg hlt, if_pos hmo] at hday
              exact absurd rfl hday
            · rename_i hmo
              rw [if_neg hlt, if_neg hmo] at hday
              exact absurd rfl hday
        refine ⟨hva, hloc, by omega, ?_, ?_, ?_⟩
        · intro e hev hlo hhi
          by_cases hin : toMin e < toMin (dayStep c.dt)
          · obtain ⟨hy, hmo, hd⟩ := day_locality hv hev hlo hin
            apply matchesAt_false_day
            rw [dayMatches_congr s hy hmo hd]
            exact hmfalse
          · exact hskip e hev (by omega) hhi
        · intro x hx
          obtain ⟨ha, hb, hc2, hd2⟩ := hinl x hx
          dsimp only at hb hc2
          refine ⟨ha, by omega, by omega, ?_⟩
          rcases hd2 with heq | hsh2
          · right
            rw [heq]
            exact ⟨hsh.1, hsh.2⟩
          · exact Or.inr hsh2
        · intro x hx
          obtain ⟨ha, hb, hc2, hd2⟩ := hinr x hx
          dsimp only at hd2
          exact ⟨ha, hb, hc2, by omega⟩

theorem toMin_lt_hourStep {d : DT} (h : ValidDT d) : toMin d < toMin (hourStep d) := by
  have hs := (hourStep_spec h).2.1
  obtain ⟨h1, h2, h3, h4, h5, h6⟩ := h
  rw [hs]
  unfold toMin
  omega

theorem hourLoopF_spec (s : Schedule) : ∀ (fuel : Nat) (c : CT) (r : CT ⊕ CT),
    ValidDT c.dt → hourLoopF s fuel c = some r →
    ValidDT (Sum.elim id id r).dt ∧ (Sum.elim id id r).loc = c.loc ∧
    toMin c.dt ≤ toMin (Sum.elim id id r).dt ∧
    (∀ e : DT, ValidDT e → toMin c.dt ≤ toMin e → toMin e < toMin (Sum.elim id id r).dt →
      s.matchesAt e = false) ∧
    (∀ x : CT, r = .inl x → s.hour.matches (x.dt.hour : Int) = true ∧
      x.dt.year = c.dt.year ∧ x.dt.month = c.dt.month ∧ x.dt.day = c.dt.day ∧
      (x = c ∨ x.dt.minute = 0)) ∧
    (∀ x : CT, r = .inr x → x.dt.hour = 0 ∧ x.dt.minute = 0 ∧
      toMin c.dt < toMin x.dt) := by
  intro fuel
  induction fuel with
  | zero => intro c r _ h; exact absurd h (by simp [hourLoopF])
  | succ n ih =>
    intro c r hv h
    unfold hourLoopF at h
    by_cases hm : s.hour.matches (c.dt.hour : Int)
    · rw [if_pos hm] at h
      injection h with h
      subst h
      refine ⟨hv, rfl, le_refl _,
        fun e _ hlo hhi => absurd (lt_of_le_of_lt hlo hhi) (lt_irrefl _), ?_, ?_⟩
      · intro x hx
        injection hx with hx
        subst hx
        exact ⟨hm, rfl, rfl, rfl, Or.inl rfl⟩
      · intro x hx
        cases hx
    · rw [if_neg hm] at h
      have hspec := hourStep_spec hv
      have hv2 : ValidDT (hourStep c.dt) := hspec.1
      have hstep := toMin_lt_hourStep hv
      have hmfalse : s.hour.matches (c.dt.hour : Int) = false := by
        cases hmb : s.hour.matches (c.dt.hour : Int)
        · rfl
        · exact absurd hmb hm
      have hskipstep : ∀ e : DT, ValidDT e → toMin c.dt ≤ toMin e →
          toMin e < toMin (hourStep c.dt) → s.matchesAt e = false := by
        intro e hev hlo hhi
        rw [hspec.2.1] at hhi
        obtain ⟨hy, hmo, hd, hh⟩ := hour_locality hv hev hlo hhi
        apply matchesAt_false_hour
        rw [hh]
        exact hmfalse
      by_cases hzero : (hourStep c.dt).hour = 0
      · rw [if_pos hzero] at h
        injection h with h
        subst h
        refine ⟨hv2, rfl, le_of_lt hstep, hskipstep, ?_, ?_⟩
        · intro x hx
          cases hx
        · intro x hx
          injection hx with hx
          subst hx
          exact ⟨hzero, hspec.2.2, hstep⟩
      · rw [if_neg hzero] at h
        obtain ⟨hva, hloc, hle, hskip, hinl, hinr⟩ := ih ⟨hourStep c.dt, c.loc⟩ r hv2 h
        dsimp only at hva hloc hle hskip
        have hdate : (hourStep c.dt).year = c.dt.year ∧ (hourStep c.dt).month = c.dt.month ∧
            (hourStep c.dt).day = c.dt.day := by
          unfold hourStep at hzero ⊢
          split
          · exact ⟨rfl, rfl, rfl⟩
          · rename_i hlt
            rw [if_neg hlt] at hzero
            have := dayStep_shape ⟨c.dt.year, c.dt.month, c.dt.day, 0, 0⟩
            exact absurd this.1 hzero
        refine ⟨hva, hloc, by omega, ?_, ?_, ?_⟩
        · intro e hev hlo hhi
          by_cases hin : toMin e < toMin (hourStep c.dt)
          · exact hskipstep e hev hlo hin
          · exact hskip e hev (by omega) hhi
        · intro x hx
          obtain ⟨ha, hb, hc2, hd2, he2⟩ := hinl x hx
          dsimp only at hb hc2 hd2
          refine ⟨ha, by omega, by omega, by omega, ?_⟩
          rcases he2 with heq | hmin
          · right
            rw [heq]
            exact hspec.2.2
          · exact Or.inr hmin
        · intro x hx
          obtain ⟨ha, hb, hc2⟩ := hinr x hx
          dsimp only at hc2
          exact ⟨ha, hb, by omega⟩

theorem minuteLoopF_spec (s : Schedule) : ∀ (fuel : Nat) (c : CT) (r : CT ⊕ CT),
    ValidDT c.dt → minuteLoopF s fuel c = some r →
    ValidDT (Sum.elim id id r).dt ∧ (Sum.elim id id r).loc = c.loc ∧
    toMin c.dt ≤ toMin (Sum.elim id id r).dt ∧
    (∀ e : DT, ValidDT e → toMin c.dt ≤ toMin e → toMin e < toMin (Sum.elim id id r).dt →
      s.matchesAt e = false) ∧
    (∀ x : CT, r = .inl x → s.minute.matches (x.dt.minute : Int) = true ∧
      x.dt.year = c.dt.year ∧ x.dt.month = c.dt.month ∧ x.dt.day = c.dt.day ∧
      x.dt.hour = c.dt.hour) ∧
    (∀ x : CT, r = .inr x → x.dt.minute = 0 ∧ toMin c.dt < toMin x.dt) := by
  intro fuel
  induction fuel with
  | zero => intro c r _ h; exact absurd h (by simp [minuteLoopF])
  | succ n ih =>
    intro c r hv h
    unfold minuteLoopF at h
    by_cases hm : s.minute.matches (c.dt.minute : Int)
    · rw [if_pos hm] at h
      injection h with h
      subst h
      refine ⟨hv, rfl, le_refl _,
        fun e _ hlo hhi => absurd (lt_of_le_of_lt hlo hhi) (lt_irrefl _), ?_, ?_⟩
      · intro x hx
        injection hx with hx
        subst hx
        exact ⟨hm, rfl, rfl, rfl, rfl⟩
      · intro x hx
        cases hx
    · rw [if_neg hm] at h
      have hspec := minuteStep_spec hv
      have hv2 : ValidDT (minuteStep c.dt) := hspec.1
      have hstep : toMin c.dt < toMin (minuteStep c.dt) := by omega
      have hmfalse : s.minute.matches (c.dt.minute : Int) = false := by
        cases hmb : s.minute.matches (c.dt.minute : Int)
        · rfl
        · exact absurd hmb hm
      have hskipstep : ∀ e : DT, ValidDT e → toMin c.dt ≤ toMin e →
          toMin e < toMin (minuteStep c.dt) → s.matchesAt e = false := by
        intro e hev hlo hhi
        rw [hspec.2] at hhi
        have := minute_locality hv hev hlo hhi
        subst this
        apply matchesAt_false_minute
        exact hmfalse
      by_cases hzero : (minuteStep c.dt).minute = 0
      · rw [if_pos hzero] at h
        injection h with h
        subst h
        refine ⟨hv2, rfl, le_of_lt hstep, hskipstep, ?_, ?_⟩
        · intro x hx
          cases hx
        · intro x hx
          injection hx with hx
          subst hx
          exact ⟨hzero, hstep⟩
      · rw [if_neg hzero] at h
        obtain ⟨hva, hloc, hle, hskip, hinl, hinr⟩ := ih ⟨minuteStep c.dt, c.loc⟩ r hv2 h
        dsimp only at hva hloc hle hskip
        have hdate : (minuteStep c.dt).year = c.dt.year ∧ (minuteStep c.dt).month = c.dt.month ∧
            (minuteStep c.dt).day = c.dt.day ∧ (minuteStep c.dt).hour = c.dt.hour := by
          unfold minuteStep at hzero ⊢
          split
          · exact ⟨rfl, rfl, rfl, rfl⟩
          · rename_i hlt
            rw [if_neg hlt] at hzero
            have := (hourStep_spec (d := ⟨c.dt.year, c.dt.month, c.dt.day, c.dt.hour, 0⟩)
              ?hval).2.2
            case hval =>
              obtain ⟨h1, h2, h3, h4, h5, h6⟩ := hv
              exact validDT_mk h1 h2 h3 h4 h5 (by omega)
            exact absurd this hzero
        refine ⟨hva, hloc, by omega, ?_, ?_, ?_⟩
        · intro e hev hlo hhi
          by_cases hin : toMin e < toMin (minuteStep c.dt)
          · exact hskipstep e hev hlo hin
          · exact hskip e hev (by omega) hhi
        · intro x hx
          obtain ⟨ha, hb, hc2, hd2, he2⟩ := hinl x hx
          dsimp only at hb hc2 hd2 he2
          exact ⟨ha, by omega, by omega, by omega, by omega⟩
        · intro x hx
          obtain ⟨ha, hb⟩ := hinr x hx
          dsimp only at hb
          exact ⟨ha, by omega⟩

/-! ## The inner loops never exhaust their fixed fuel -/

/-- Month successor as produced by `monthStep`. -/
def monthSucc (m : Nat) : Nat :=
  if m < 12 then m + 1 else 1

theorem monthStep_month (d : DT) : (monthStep d).month = monthSucc d.month := by
  unfold monthStep monthSucc
  split
  · rfl
  · rfl

theorem monthSucc_iterate (j : Nat) : ∀ m : Nat, 1 ≤ m → m ≤ 12 →
    monthSucc^[j] m = (m - 1 + j) % 12 + 1 := by
  induction j with
  | zero => intro m h1 h2; simp; omega
  | succ n ih =>
    intro m h1 h2
    rw [Function.iterate_succ_apply]
    by_cases hlt : m < 12
    · have hs : monthSucc m = m + 1 := by unfold monthSucc; rw [if_pos hlt]
      rw [hs, ih (m + 1) (by omega) (by omega)]
      omega
    · have hs : monthSucc m = 1 := by unfold monthSucc; rw [if_neg hlt]
      rw [hs, ih 1 (by omega) (by omega)]
      omega

theorem monthLoopF_some (s : Schedule) : ∀ (fuel : Nat) (c : CT), ValidDT c.dt →
    (∃ j, j < fuel ∧ s.month.matches ((monthSucc^[j] c.dt.month : Nat) : Int) = true) →
    (monthLoopF s fuel c).isSome := by
  intro fuel
  induction fuel with
  | zero => intro c _ ⟨j, hj, _⟩; omega
  | succ n ih =>
    intro c hv ⟨j, hj, hmat⟩
    unfold monthLoopF
    by_cases hm : s.month.matches (c.dt.month : Int)
    · rw [if_pos hm]
      rfl
    · rw [if_neg hm]
      rcases j with _ | j2
    
      · rw [Function.iterate_zero_apply] at hmat
        exact absurd hmat hm
      · apply ih ⟨monthStep c.dt, c.loc⟩ (monthStep_valid hv)
        refine ⟨j2, by omega, ?_⟩
        rw [Function.iterate_succ_apply] at hmat
        dsimp only
        rw [monthStep_month]
        exact hmat

theorem monthLoopF_succeeds {s : Schedule} (hwf : ScheduleWF s) {c : CT} (hv : ValidDT c.dt) :
    (monthLoopF s 12 c).isSome := by
  obtain ⟨_, _, _, hmon, _⟩ := hwf
  obtain ⟨hne, hall⟩ := hmon
  rcases hl : s.month with _ | ⟨r, rest⟩
  · exact absurd hl hne
  · have hr := hall r (by rw [hl]; exact List.mem_cons_self r rest)
    obtain ⟨hb1, hb2, hb3, hb4⟩ := hr
    unfold monthField at hb1 hb3
    dsimp only at hb1 hb3
    -- the start of the first range is a month in 1..12 that matches
    have hk : ∃ k : Nat, 1 ≤ k ∧ k ≤ 12 ∧ s.month.matches (k : Int) = true := by
      refine ⟨r.start.toNat, by omega, by omega, ?_⟩
      unfold listSpec.matches
      rw [hl]
      simp only [List.any_cons, Bool.or_eq_true]
      left
      unfold rangeSpec.matches
      have hcast : (r.start.toNat : Int) = r.start := by omega
      rw [hcast]
      simp only [Bool.and_eq_true, decide_eq_true_eq, beq_iff_eq]
      refine ⟨⟨le_refl _, hb2⟩, ?_⟩
      simp [Int.sub_self]
    obtain ⟨k, hk1, hk2, hkm⟩ := hk
    obtain ⟨h1, h2, h3, h4, h5, h6⟩ := hv
    apply monthLoopF_some s 12 c ⟨h1, h2, h3, h4, h5, h6⟩
    refine ⟨(k + 12 - c.dt.month) % 12, by omega, ?_⟩
    rw [monthSucc_iterate _ _ h1 h2]
    have : c.dt.month - 1 + (k + 12 - c.dt.month) % 12 % 12 + 1 = k ∨
        (c.dt.month - 1 + (k + 12 - c.dt.month) % 12) % 12 + 1 = k := by omega
    have heq : (c.dt.month - 1 + (k + 12 - c.dt.month) % 12) % 12 + 1 = k := by omega
    rw [heq]
    exact hkm

theorem dayLoopF_some (s : Schedule) : ∀ (fuel : Nat) (c : CT), ValidDT c.dt →
    daysInMonth c.dt.year c.dt.month + 2 - c.dt.day ≤ fuel →
    (dayLoopF s fuel c).isSome := by
  intro fuel
  induction fuel with
  | zero =>
    intro c hv hf
    obtain ⟨h1, h2, h3, h4, h5, h6⟩ := hv
    omega
  | succ n ih =>
    intro c hv hf
    unfold dayLoopF
    by_cases hm : s.dayMatches c.dt
    · rw [if_pos hm]
      rfl
    · rw [if_neg hm]
      by_cases hone : (dayStep c.dt).day = 1
      · rw [if_pos hone]
        rfl
      · rw [if_neg hone]
        obtain ⟨h1, h2, h3, h4, h5, h6⟩ := id hv
        have hlt : c.dt.day < daysInMonth c.dt.year c.dt.month := by
          by_contra hge
          have : c.dt.day = daysInMonth c.dt.year c.dt.month := by omega
          unfold dayStep at hone
          rw [if_neg (by omega)] at hone
          by_cases hm12 : c.dt.month < 12
          · rw [if_pos hm12] at hone
            exact hone rfl
          · rw [if_neg hm12] at hone
            exact hone rfl
        have hstep : dayStep c.dt = ⟨c.dt.year, c.dt.month, c.dt.day + 1, 0, 0⟩ := by
          unfold dayStep
          rw [if_pos hlt]
        apply ih ⟨dayStep c.dt, c.loc⟩ (dayStep_valid hv)
        rw [hstep]
        dsimp only
        omega

theorem hourLoopF_some (s : Schedule) : ∀ (fuel : Nat) (c : CT), ValidDT c.dt →
    25 - c.dt.hour ≤ fuel → (hourLoopF s fuel c).isSome := by
  intro fuel
  induction fuel with
  | zero =>
    intro c hv hf
    obtain ⟨h1, h2, h3, h4, h5, h6⟩ := hv
    omega
  | succ n ih =>
    intro c hv hf
    unfold hourLoopF
    by_cases hm : s.hour.matches (c.dt.hour : Int)
    · rw [if_pos hm]
      rfl
    · rw [if_neg hm]
      by_cases hzero : (hourStep c.dt).hour = 0
      · rw [if_pos hzero]
        rfl
      · rw [if_neg hzero]
        obtain ⟨h1, h2, h3, h4, h5, h6⟩ := id hv
        have hlt : c.dt.hour < 23 := by
          by_contra hge
          unfold hourStep at hzero
          rw [if_neg (by omega)] at hzero
          exact hzero (dayStep_shape _).1
        have hstep : hourStep c.dt = ⟨c.dt.year, c.dt.month, c.dt.day, c.dt.hour + 1, 0⟩ := by
          unfold hourStep
          rw [if_pos hlt]
        apply ih ⟨hourStep c.dt, c.loc⟩ (hourStep_spec hv).1
        rw [hstep]
        dsimp only
        omega

theorem minuteLoopF_some (s : Schedule) : ∀ (fuel : Nat) (c : CT), ValidDT c.dt →
    61 - c.dt.minute ≤ fuel → (minuteLoopF s fuel c).isSome := by
  intro fuel
  induction fuel with
  | zero =>
    intro c hv hf
    obtain ⟨h1, h2, h3, h4, h5, h6⟩ := hv
    omega
  | succ n ih =>
    intro c hv hf
    unfold minuteLoopF
    by_cases hm : s.minute.matches (c.dt.minute : Int)
    · rw [if_pos hm]
      rfl
    · rw [if_neg hm]
      by_cases hzero : (minuteStep c.dt).minute = 0
      · rw [if_pos hzero]
        rfl
      · rw [if_neg hzero]
        obtain ⟨h1, h2, h3, h4, h5, h6⟩ := id hv
        have hlt : c.dt.minute < 59 := by
          by_contra hge
          unfold minuteStep at hzero
          rw [if_neg (by omega)] at hzero
          have hvh : ValidDT ⟨c.dt.year, c.dt.month, c.dt.day, c.dt.hour, 0⟩ :=
            validDT_mk h1 h2 h3 h4 h5 (by omega)
          exact hzero (hourStep_spec hvh).2.2
        have hstep : minuteStep c.dt =
            ⟨c.dt.year, c.dt.month, c.dt.day, c.dt.hour, c.dt.minute + 1⟩ := by
          unfold minuteStep
          rw [if_pos hlt]
        apply ih ⟨minuteStep c.dt, c.loc⟩ (minuteStep_spec hv).1
        rw [hstep]
        dsimp only
        omega

/-- `t.Before(horizon)` characterized arithmetically. -/
theorem beforeH_iff (c : CT) (h : GoTime) :
    beforeH c h = true ↔
      (toMin c.dt < toMin h.dt ∨ (toMin c.dt = toMin h.dt ∧ 0 < h.sub)) := by
  unfold beforeH
  simp [Bool.or_eq_true, Bool.and_eq_true, decide_eq_true_eq]

/-! ## Master correctness of the `wrap` search loop -/

theorem nextLoop_spec (s : Schedule) (h : GoTime) (hwf : ScheduleWF s) :
    ∀ (fuel : Nat) (c : CT), ValidDT c.dt →
    toMin h.dt < toMin c.dt + fuel →
    (∃ r, nextLoop s h fuel c = some r) ∧
    (∀ m : CT, nextLoop s h fuel c = some (some m) →
      ValidDT m.dt ∧ m.loc = c.loc ∧ s.matchesAt m.dt = true ∧ toMin c.dt ≤ toMin m.dt ∧
      (∀ e : DT, ValidDT e → toMin c.dt ≤ toMin e → toMin e < toMin m.dt →
        s.matchesAt e = false)) ∧
    (nextLoop s h fuel c = some none →
      ∀ e : DT, ValidDT e → toMin c.dt ≤ toMin e → s.matchesAt e = true →
        toMin h.dt < toMin e ∨ (toMin h.dt = toMin e ∧ h.sub = 0)) := by
  intro fuel
  induction fuel with
  | zero =>
    intro c hv hfuel
    have hb : beforeH c h = false := by
      cases hbb : beforeH c h
      · rfl
      · rw [beforeH_iff] at hbb
        omega
    have heq : nextLoop s h 0 c = some none := by
      unfold nextLoop
      rw [hb]
      rfl
    refine ⟨⟨none, heq⟩, ?_, ?_⟩
    · intro m hm
      rw [heq] at hm
      cases hm
    · intro _ e hev hlo hmat
      omega
  | succ n ih =>
    intro c hv hfuel
    by_cases hb : beforeH c h
    case neg =>
      have hbf : beforeH c h = false := by
        cases hbb : beforeH c h
        · rfl
        · exact absurd hbb hb
      have hnb := hbf
      rw [show (beforeH c h = false) ↔ ¬ (beforeH c h = true) from by simp] at hnb
      rw [beforeH_iff] at hnb
      push_neg at hnb
      have heq : nextLoop s h (n + 1) c = some none := by
        unfold nextLoop
        rw [hbf]
        rfl
      refine ⟨⟨none, heq⟩, ?_, ?_⟩
      · intro m hm
        rw [heq] at hm
        cases hm
      · intro _ e hev hlo hmat
        by_cases hlt : toMin h.dt < toMin e
        · exact Or.inl hlt
        · right
          constructor
          · omega
          · have hce : toMin c.dt = toMin h.dt := by omega
            omega
    case pos =>
      -- the guard holds; one full cascade pass runs
      have hbt : beforeH c h = true := hb
      have hml : (monthLoopF s 12 c).isSome := monthLoopF_succeeds hwf hv
      rcases hmleq : monthLoopF s 12 c with _ | c1
      · rw [hmleq] at hml
        cases hml
      obtain ⟨hv1, hloc1, hmm1, hle1, hskip1, hsh1⟩ := monthLoopF_spec s 12 c c1 hv hmleq
      have hdl : (dayLoopF s 40 c1).isSome := by
        apply dayLoopF_some s 40 c1 hv1
        obtain ⟨g1, g2, g3, g4, g5, g6⟩ := hv1
        have := daysInMonthL_le (isLeap c1.dt.year) c1.dt.month
        rw [daysInMonth_eq]
        omega
      rcases hdleq : dayLoopF s 40 c1 with _ | r
      · rw [hdleq] at hdl
        cases hdl
      rcases r with c2 | c2
      case inr =>
        -- day wrapped into a new month: continue wrap
        obtain ⟨hv2, hloc2, hle2, hskip2, _, hinr⟩ := dayLoopF_spec s 40 c1 (.inr c2) hv1 hdleq
        obtain ⟨hd1, hh0, hm0, hlt2⟩ := hinr c2 rfl
        simp only [Sum.elim_inl, Sum.elim_inr, id_eq] at hv2 hloc2 hle2 hskip2
        have heq : nextLoop s h (n + 1) c = nextLoop s h n c2 := by
          conv_lhs => rw [nextLoop.eq_def]
          dsimp only
          rw [hbt, if_pos rfl]
          simp only [hmleq, hdleq]
        obtain ⟨hex, hsome, hnone⟩ := ih c2 hv2 (by omega)
        refine ⟨by rw [heq]; exact hex, ?_, ?_⟩
        · intro m hm
          rw [heq] at hm
          obtain ⟨hmv, hmloc, hmmat, hmle, hmskip⟩ := hsome m hm
          refine ⟨hmv, by rw [hmloc, hloc2, hloc1], hmmat, by omega, ?_⟩
          intro e hev helo hehi
          by_cases he1 : toMin e < toMin c1.dt
          · exact hskip1 e hev helo he1
          · by_cases he2 : toMin e < toMin c2.dt
            · exact hskip2 e hev (by omega) he2
            · exact hmskip e hev (by omega) hehi
        · intro hm e hev helo hemat
          rw [heq] at hm
          by_cases he2 : toMin e < toMin c2.dt
          · exfalso
            by_cases he1 : toMin e < toMin c1.dt
            · rw [hskip1 e hev helo he1] at hemat
              cases hemat
            · rw [hskip2 e hev (by omega) he2] at hemat
              cases hemat
          · exact hnone hm e hev (by omega) hemat
      case inl =>
        obtain ⟨hv2, hloc2, hle2, hskip2, hinl, _⟩ := dayLoopF_spec s 40 c1 (.inl c2) hv1 hdleq
        obtain ⟨hdm2, hy2, hm2, hsh2⟩ := hinl c2 rfl
        simp only [Sum.elim_inl, Sum.elim_inr, id_eq] at hv2 hloc2 hle2 hskip2
        have hhl : (hourLoopF s 25 c2).isSome := by
          apply hourLoopF_some s 25 c2 hv2
          obtain ⟨g1, g2, g3, g4, g5, g6⟩ := hv2
          omega
        rcases hhleq : hourLoopF s 25 c2 with _ | r
        · rw [hhleq] at hhl
          cases hhl
        rcases r with c3 | c3
        case inr =>
          obtain ⟨hv3, hloc3, hle3, hskip3, _, hinr3⟩ := hourLoopF_spec s 25 c2 (.inr c3) hv2 hhleq
          obtain ⟨hh03, hm03, hlt3⟩ := hinr3 c3 rfl
          simp only [Sum.elim_inl, Sum.elim_inr, id_eq] at hv3 hloc3 hle3 hskip3
          have heq : nextLoop s h (n + 1) c = nextLoop s h n c3 := by
            conv_lhs => rw [nextLoop.eq_def]
            dsimp only
            rw [hbt, if_pos rfl]
            simp only [hmleq, hdleq, hhleq]
          obtain ⟨hex, hsome, hnone⟩ := ih c3 hv3 (by omega)
          refine ⟨by rw [heq]; exact hex, ?_, ?_⟩
          · intro m hm
            rw [heq] at hm
            obtain ⟨hmv, hmloc, hmmat, hmle, hmskip⟩ := hsome m hm
            refine ⟨hmv, by rw [hmloc, hloc3, hloc2, hloc1], hmmat, by omega, ?_⟩
            intro e hev helo hehi
            by_cases he1 : toMin e < toMin c1.dt
            · exact hskip1 e hev helo he1
            · by_cases he2 : toMin e < toMin c2.dt
              · exact hskip2 e hev (by omega) he2
              · by_cases he3 : toMin e < toMin c3.dt
                · exact hskip3 e hev (by omega) he3
                · exact hmskip e hev (by omega) hehi
          · intro hm e hev helo hemat
            rw [heq] at hm
            by_cases he3 : toMin e < toMin c3.dt
            · exfalso
              by_cases he1 : toMin e < toMin c1.dt
              · rw [hskip1 e hev helo he1] at hemat
                cases hemat
              · by_cases he2 : toMin e < toMin c2.dt
                · rw [hskip2 e hev (by omega) he2] at hemat
                  cases hemat
                · rw [hskip3 e hev (by omega) he3] at hemat
                  cases hemat
            · exact hnone hm e hev (by omega) hemat
        case inl =>
          obtain ⟨hv3, hloc3, hle3, hskip3, hinl3, _⟩ := hourLoopF_spec s 25 c2 (.inl c3) hv2 hhleq
          obtain ⟨hhm3, hy3, hmo3, hd3, hsh3⟩ := hinl3 c3 rfl
          simp only [Sum.elim_inl, Sum.elim_inr, id_eq] at hv3 hloc3 hle3 hskip3
          have hmin : (minuteLoopF s 61 c3).isSome := by
            apply minuteLoopF_some s 61 c3 hv3
            obtain ⟨g1, g2, g3, g4, g5, g6⟩ := hv3
            omega
          rcases hmineq : minuteLoopF s 61 c3 with _ | r
          · rw [hmineq] at hmin
            cases hmin
          rcases r with c4 | c4
          case inr =>
            obtain ⟨hv4, hloc4, hle4, hskip4, _, hinr4⟩ :=
              minuteLoopF_spec s 61 c3 (.inr c4) hv3 hmineq
            obtain ⟨hm04, hlt4⟩ := hinr4 c4 rfl
            simp only [Sum.elim_inl, Sum.elim_inr, id_eq] at hv4 hloc4 hle4 hskip4
            have heq : nextLoop s h (n + 1) c = nextLoop s h n c4 := by
              conv_lhs => rw [nextLoop.eq_def]
              dsimp only
              rw [hbt, if_pos rfl]
              simp only [hmleq, hdleq, hhleq, hmineq]
            obtain ⟨hex, hsome, hnone⟩ := ih c4 hv4 (by omega)
            refine ⟨by rw [heq]; exact hex, ?_, ?_⟩
            · intro m hm
              rw [heq] at hm
              obtain ⟨hmv, hmloc, hmmat, hmle, hmskip⟩ := hsome m hm
              refine ⟨hmv, by rw [hmloc, hloc4, hloc3, hloc2, hloc1], hmmat, by omega, ?_⟩
              intro e hev helo hehi
              by_cases he1 : toMin e < toMin c1.dt
              · exact hskip1 e hev helo he1
              · by_cases he2 : toMin e < toMin c2.dt
                · exact hskip2 e hev (by omega) he2
                · by_cases he3 : toMin e < toMin c3.dt
                  · exact hskip3 e hev (by omega) he3
                  · by_cases he4 : toMin e < toMin c4.dt
                    · exact hskip4 e hev (by omega) he4
                    · exact hmskip e hev (by omega) hehi
            · intro hm e hev helo hemat
              rw [heq] at hm
              by_cases he4 : toMin e < toMin c4.dt
              · exfalso
                by_cases he1 : toMin e < toMin c1.dt
                · rw [hskip1 e hev helo he1] at hemat
                  cases hemat
                · by_cases he2 : toMin e < toMin c2.dt
                  · rw [hskip2 e hev (by omega) he2] at hemat
                    cases hemat
                  · by_cases he3 : toMin e < toMin c3.dt
                    · rw [hskip3 e hev (by omega) he3] at hemat
                      cases hemat
                    · rw [hskip4 e hev (by omega) he4] at hemat
                      cases hemat
              · exact hnone hm e hev (by omega) hemat
          case inl =>
            -- all four fields match: the candidate is returned
            obtain ⟨hv4, hloc4, hle4, hskip4, hinl4, _⟩ :=
              minuteLoopF_spec s 61 c3 (.inl c4) hv3 hmineq
            obtain ⟨hmin4, hy4, hmo4, hd4, hh4⟩ := hinl4 c4 rfl
            simp only [Sum.elim_inl, Sum.elim_inr, id_eq] at hv4 hloc4 hle4 hskip4
            have heq : nextLoop s h (n + 1) c = some (some c4) := by
              conv_lhs => rw [nextLoop.eq_def]
              dsimp only
              rw [hbt, if_pos rfl]
              simp only [hmleq, hdleq, hhleq, hmineq]
            have hmat4 : s.matchesAt c4.dt = true := by
              unfold Schedule.matchesAt
              have hmonth4 : s.month.matches (c4.dt.month : Int) = true := by
                rw [hmo4, hmo3, hm2]
                exact hmm1
              have hday4 : s.dayMatches c4.dt = true := by
                rw [dayMatches_congr s (d := c2.dt) (by omega) (by rw [hmo4, hmo3])
                  (by rw [hd4, hd3])]
                exact hdm2
              have hhour4 : s.hour.matches (c4.dt.hour : Int) = true := by
                rw [hh4]
                exact hhm3
              rw [hmonth4, hday4, hhour4, hmin4]
              rfl
            refine ⟨⟨some c4, heq⟩, ?_, ?_⟩
            · intro m hm
              rw [heq] at hm
              injection hm with hm
              injection hm with hm
              subst hm
              refine ⟨hv4, by rw [hloc4, hloc3, hloc2, hloc1], hmat4, by omega, ?_⟩
              intro e hev helo hehi
              by_cases he1 : toMin e < toMin c1.dt
              · exact hskip1 e hev helo he1
              · by_cases he2 : toMin e < toMin c2.dt
                · exact hskip2 e hev (by omega) he2
                · by_cases he3 : toMin e < toMin c3.dt
                  · exact hskip3 e hev (by omega) he3
                  · exact hskip4 e hev (by omega) hehi
            · intro hm
              rw [heq] at hm
              injection hm with hm
              cases hm

/-! ## Horizon arithmetic: `AddDate(8,0,0)` moves 2920 to 2924 days ahead -/

theorem daysBeforeYear_add8 (y : Int) :
    daysBeforeYear y + 2921 ≤ daysBeforeYear (y + 8) ∧
      daysBeforeYear (y + 8) ≤ daysBeforeYear y + 2923 := by
  unfold daysBeforeYear
  omega

theorem daysBeforeMonth_flag {m : Nat} (h1 : 1 ≤ m) (h2 : m ≤ 12) :
    daysBeforeMonth false m ≤ daysBeforeMonth true m ∧
      daysBeforeMonth true m ≤ daysBeforeMonth false m + 1 := by
  interval_cases m <;> simp [daysBeforeMonth]

theorem daysInMonthL_flag {m : Nat} (h : m ≠ 2) (a b : Bool) :
    daysInMonthL a m = daysInMonthL b m := by
  unfold daysInMonthL
  split <;> first | rfl | omega

theorem addYears8_spec {d : DT} (h : ValidDT d) :
    ValidDT (addYears8 d) ∧ (addYears8 d).hour = d.hour ∧ (addYears8 d).minute = d.minute ∧
      toDays d + 2920 ≤ toDays (addYears8 d) ∧ toDays (addYears8 d) ≤ toDays d + 2924 := by
  obtain ⟨h1, h2, h3, h4, h5, h6⟩ := h
  rcases d with ⟨yy, mm, dd, hh, mi⟩
  dsimp only at h1 h2 h3 h4 h5 h6
  have hB := daysBeforeYear_add8 yy
  have hF := daysBeforeMonth_flag h1 h2
  rw [daysInMonth_eq] at h4
  unfold addYears8
  split
  · rename_i hle
    dsimp only at hle
    rw [daysInMonth_eq] at hle
    refine ⟨validDT_mk h1 h2 h3 (by rw [daysInMonth_eq]; exact hle) h5 h6, rfl, rfl, ?_, ?_⟩
    · simp only [toDays_mk]
      rcases hl1 : isLeap yy <;> rcases hl2 : isLeap (yy + 8) <;> omega
    · simp only [toDays_mk]
      rcases hl1 : isLeap yy <;> rcases hl2 : isLeap (yy + 8) <;> omega
  · rename_i hgt
    dsimp only at hgt
    rw [daysInMonth_eq] at hgt
    push_neg at hgt
    -- only Feb 29 of a leap year rolls forward: the target year is not leap
    have hm2 : mm = 2 := by
      by_contra hne
      rw [daysInMonthL_flag hne (isLeap yy) (isLeap (yy + 8))] at h4
      omega
    subst hm2
    have hl2 : isLeap (yy + 8) = false := by
      rcases hl : isLeap (yy + 8)
      · rfl
      · rw [hl] at hgt
        dsimp [daysInMonthL] at hgt
        rcases hl1 : isLeap yy <;> rw [hl1] at h4 <;> dsimp [daysInMonthL] at h4 <;> omega
    have hl1 : isLeap yy = true := by
      rcases hl : isLeap yy
      · rw [hl] at h4
        rw [hl2] at hgt
        dsimp [daysInMonthL] at h4 hgt
        omega
      · rfl
    rw [hl1] at h4
    rw [hl2] at hgt
    dsimp [daysInMonthL] at h4 hgt
    have hday : dd = 29 := by omega
    subst hday
    have hdim : daysInMonth (yy + 8) 2 = 28 := by
      rw [daysInMonth_eq, hl2]
      rfl
    dsimp only
    rw [hdim]
    refine ⟨?_, rfl, rfl, ?_, ?_⟩
    · refine validDT_mk (by omega) (by omega) (by omega) ?_ h5 h6
      rw [daysInMonth_eq]
      rcases hl : isLeap (yy + 8) <;> dsimp [daysInMonthL] <;> omega
    · simp only [toDays_mk, hl1, hl2]
      dsimp [daysBeforeMonth]
      omega
    · simp only [toDays_mk, hl1, hl2]
      dsimp [daysBeforeMonth]
      omega

theorem horizonOf_spec {t : GoTime} (h : ValidDT t.dt) :
    ValidDT (horizonOf t).dt ∧
      toMin t.dt + 4204800 ≤ toMin (horizonOf t).dt ∧
      toMin (horizonOf t).dt ≤ toMin t.dt + 4210560 := by
  obtain ⟨hv, hh, hmi, hlo, hhi⟩ := addYears8_spec h
  have heq : (horizonOf t).dt = addYears8 t.dt := rfl
  rw [heq]
  refine ⟨hv, ?_, ?_⟩
  · unfold toMin
    rw [hh, hmi]
    omega
  · unfold toMin
    rw [hh, hmi]
    omega

theorem startCT_spec {t : GoTime} (h : ValidDT t.dt) :
    ValidDT (startCT t).dt ∧ toMin (startCT t).dt = toMin t.dt + 1 ∧ (startCT t).loc = t.loc := by
  obtain ⟨hv, htm⟩ := minuteStep_spec h
  exact ⟨hv, htm, rfl⟩

/-- Enough fuel: the fixed constant exceeds the number of minutes in the
search window. -/
theorem nextRun_full (s : Schedule) (t : GoTime) (hwf : ScheduleWF s) (hv : ValidDT t.dt) :
    (∃ r, nextRun s t = some r) ∧
    (∀ m : CT, nextRun s t = some (some m) →
      ValidDT m.dt ∧ m.loc = t.loc ∧ s.matchesAt m.dt = true ∧
      toMin t.dt < toMin m.dt ∧
      (∀ e : DT, ValidDT e → toMin t.dt < toMin e → toMin e < toMin m.dt →
        s.matchesAt e = false)) ∧
    (nextRun s t = some none →
      ∀ e : DT, ValidDT e → toMin t.dt < toMin e → s.matchesAt e = true →
        toMin (horizonOf t).dt < toMin e ∨
          (toMin (horizonOf t).dt = toMin e ∧ t.sub = 0)) := by
  obtain ⟨hsv, hst, hsl⟩ := startCT_spec hv
  obtain ⟨hhv, hhlo, hhhi⟩ := horizonOf_spec hv
  have hfuel : toMin (horizonOf t).dt < toMin (startCT t).dt + (NextFUEL : Int) := by
    unfold NextFUEL
    omega
  obtain ⟨hex, hsome, hnone⟩ := nextLoop_spec s (horizonOf t) hwf NextFUEL (startCT t) hsv hfuel
  refine ⟨hex, ?_, ?_⟩
  · intro m hm
    obtain ⟨hmv, hmloc, hmmat, hmle, hmskip⟩ := hsome m hm
    refine ⟨hmv, by rw [hmloc, hsl], hmmat, by omega, ?_⟩
    intro e hev helo hehi
    exact hmskip e hev (by omega) hehi
  · intro hm e hev helo hemat
    have := hnone hm e hev (by omega) hemat
    have hsub : (horizonOf t).sub = t.sub := rfl
    rcases this with hlt | ⟨heq2, hs⟩
    · exact Or.inl hlt
    · right
      rw [hsub] at hs
      exact ⟨heq2, hs⟩

/-- `Next` returns the unique earliest matching instant when one lies
strictly inside the horizon. -/
theorem Next_found (s : Schedule) (t : GoTime) (hwf : ScheduleWF s) (hv : ValidDT t.dt)
    (m : DT) (hm : ValidDT m) (hmat : s.matchesAt m = true)
    (hafter : toMin t.dt < toMin m)
    (hwithin : toMin m < toMin (horizonOf t).dt ∨
      (toMin m = toMin (horizonOf t).dt ∧ 0 < t.sub))
    (hmin : ∀ e : DT, ValidDT e → s.matchesAt e = true → toMin t.dt < toMin e →
      toMin m ≤ toMin e) :
    s.Next t = ⟨m, 0, t.loc⟩ := by
  obtain ⟨⟨r, hr⟩, hsome, hnone⟩ := nextRun_full s t hwf hv
  rcases r with _ | c
  · exfalso
    have := hnone hr m hm hafter hmat
    omega
  · obtain ⟨hcv, hcloc, hcmat, hcafter, hcskip⟩ := hsome c hr
    have hle1 : toMin m ≤ toMin c.dt := hmin c.dt hcv hcmat hcafter
    have hle2 : ¬ (toMin m < toMin c.dt) := by
      intro hlt
      rw [hcskip m hm hafter hlt] at hmat
      cases hmat
    have heqm : m = c.dt := dt_eq_of_toMin_eq hm hcv (by omega)
    unfold Schedule.Next
    rw [hr]
    show (⟨c.dt, 0, c.loc⟩ : GoTime) = ⟨m, 0, t.loc⟩
    rw [heqm, hcloc]

theorem nextRun_ne_none (s : Schedule) (t : GoTime) (hwf : ScheduleWF s) (hv : ValidDT t.dt) :
    nextRun s t ≠ none := by
  obtain ⟨⟨r, hr⟩, _, _⟩ := nextRun_full s t hwf hv
  rw [hr]
  simp

/-- When `Next` returns Go's zero time (for an argument at or after the zero
time itself), no matching instant lies strictly inside the horizon. -/
theorem Next_zero_no_match (s : Schedule) (t : GoTime) (hwf : ScheduleWF s) (hv : ValidDT t.dt)
    (hz : toMin goZeroDT ≤ toMin t.dt) (hzero : s.Next t = goZeroTime) :
    ∀ m : DT, ValidDT m → s.matchesAt m = true → toMin t.dt < toMin m →
      ¬ (toMin m < toMin (horizonOf t).dt ∨
        (toMin m = toMin (horizonOf t).dt ∧ 0 < t.sub)) := by
  intro m hm hmat hafter
  obtain ⟨⟨r, hr⟩, hsome, hnone⟩ := nextRun_full s t hwf hv
  rcases r with _ | c
  · have := hnone hr m hm hafter hmat
    omega
  · exfalso
    obtain ⟨hcv, hcloc, hcmat, hcafter, _⟩ := hsome c hr
    unfold Schedule.Next at hzero
    rw [hr] at hzero
    have hzdt : c.dt = goZeroDT := by
      have : (⟨c.dt, 0, c.loc⟩ : GoTime) = goZeroTime := hzero
      injection this
    rw [hzdt] at hcafter
    omega

/-! ## Concrete parsed schedules used by the test suite and the claims -/

/-- The rangeSpec a `*` or `?` token parses to. -/
def fullRange (f : field) : rangeSpec := ⟨f.min, f.max, 1⟩

/-- The listSpec a bare `*` field parses to. -/
def fullList (f : field) : listSpec := [fullRange f]

/-- `*/5 * * * *` -/
def schedEvery5 : Schedule :=
  ⟨[⟨0, 59, 5⟩], fullList hourField, fullList dayField, fullList monthField,
    fullList weekdayField⟩

/-- `0 0 13 * 5` -/
def sched13Fri : Schedule :=
  ⟨[⟨0, 0, 1⟩], [⟨0, 0, 1⟩], [⟨13, 13, 1⟩], fullList monthField, [⟨5, 5, 1⟩]⟩

/-- `0 0 31 2 *` (unsatisfiable: February has no 31st) -/
def schedDay31Feb : Schedule :=
  ⟨[⟨0, 0, 1⟩], [⟨0, 0, 1⟩], [⟨31, 31, 1⟩], [⟨2, 2, 1⟩], fullList weekdayField⟩

/-- `0 0 29 2 *` (leap days only) -/
def schedFeb29 : Schedule :=
  ⟨[⟨0, 0, 1⟩], [⟨0, 0, 1⟩], [⟨29, 29, 1⟩], [⟨2, 2, 1⟩], fullList weekdayField⟩

theorem singleton_matches_iff (v i : Int) :
    listSpec.matches [⟨v, v, 1⟩] i = true ↔ i = v := by
  unfold listSpec.matches rangeSpec.matches
  simp
  omega

/-! ## Fuel irrelevance: a definitive answer is stable under more fuel -/

theorem nextLoop_mono (s : Schedule) (h : GoTime) :
    ∀ (f1 : Nat), ∀ (f2 : Nat) (c : CT) (r : Option CT),
    nextLoop s h f1 c = some r → f1 ≤ f2 → nextLoop s h f2 c = some r := by
  intro f1
  induction f1 with
  | zero =>
    intro f2 c r h0 _
    conv_lhs at h0 => rw [nextLoop.eq_def]
    conv_lhs => rw [nextLoop.eq_def]
    dsimp only at h0 ⊢
    by_cases hb : beforeH c h
    · rw [hb] at h0
      rw [if_pos rfl] at h0
      cases h0
    · have hbf : beforeH c h = false := by
        cases hbb : beforeH c h
        · rfl
        · exact absurd hbb hb
      rw [hbf] at h0 ⊢
      rw [if_neg (by simp)] at h0 ⊢
      exact h0
  | succ n ih =>
    intro f2 c r h0 hle
    by_cases hb : beforeH c h
    case neg =>
      have hbf : beforeH c h = false := by
        cases hbb : beforeH c h
        · rfl
        · exact absurd hbb hb
      conv_lhs at h0 => rw [nextLoop.eq_def]
      conv_lhs => rw [nextLoop.eq_def]
      dsimp only at h0 ⊢
      rw [hbf] at h0 ⊢
      rw [if_neg (by simp)] at h0 ⊢
      exact h0
    case pos =>
      obtain ⟨k, hk⟩ : ∃ k, f2 = k + 1 := ⟨f2 - 1, by omega⟩
      subst hk
      have hkn : n ≤ k := by omega
      conv_lhs at h0 => rw [nextLoop.eq_def]
      conv_lhs => rw [nextLoop.eq_def]
      dsimp only at h0 ⊢
      rw [hb, if_pos rfl] at h0 ⊢
      rcases hm : monthLoopF s 12 c with _ | c1
      · rw [hm] at h0
        dsimp only at h0
        cases h0
      rw [hm] at h0
      dsimp only at h0 ⊢
      rcases hd : dayLoopF s 40 c1 with _ | rd
      · rw [hd] at h0
        dsimp only at h0
        cases h0
      rw [hd] at h0
      rcases rd with c2 | c2
      case inr =>
        dsimp only at h0 ⊢
        exact ih k c2 r h0 hkn
      case inl =>
        dsimp only at h0 ⊢
        rcases hh : hourLoopF s 25 c2 with _ | rh
        · rw [hh] at h0
          dsimp only at h0
          cases h0
        rw [hh] at h0
        rcases rh with c3 | c3
        case inr =>
          dsimp only at h0 ⊢
          exact ih k c3 r h0 hkn
        case inl =>
          dsimp only at h0 ⊢
          rcases hmin : minuteLoopF s 61 c3 with _ | rm
          · rw [hmin] at h0
            dsimp only at h0
            cases h0
          rw [hmin] at h0
          rcases rm with c4 | c4
          case inr =>
            dsimp only at h0 ⊢
            exact ih k c4 r h0 hkn
          case inl =>
            dsimp only at h0 ⊢
            exact h0

/-- Evaluate `nextRun` by running the loop with a small concrete fuel. -/
theorem nextRun_eval (s : Schedule) (t : GoTime) (r : Option CT)
    (h600 : nextLoop s (horizonOf t) 600 (startCT t) = some r) : nextRun s t = some r :=
  nextLoop_mono s (horizonOf t) 600 NextFUEL (startCT t) r h600 (by norm_num [NextFUEL])

theorem Next_of_nextRun_some {s : Schedule} {t : GoTime} {c : CT}
    (h : nextRun s t = some (some c)) : s.Next t = ⟨c.dt, 0, c.loc⟩ := by
  unfold Schedule.Next
  rw [h]

theorem Next_of_nextRun_none {s : Schedule} {t : GoTime}
    (h : nextRun s t = some none) : s.Next t = goZeroTime := by
  unfold Schedule.Next
  rw [h]

/-! ## An evaluation-friendly restatement of the search loop

`nextLoop` matches its fuel inside the horizon guard, which the kernel
evaluator handles poorly on concrete inputs.  `nextLoopB` is the same
function with the fuel matched at the top level; the two are proved equal,
and concrete runs of `Next` are decided through `nextLoopB`. -/

def nextLoopB (s : Schedule) (h : GoTime) : Nat → CT → Option (Option CT)
  | 0, c => if beforeH c h then none else some none
  | fuel + 1, c =>
    if beforeH c h then
      match monthLoopF s 12 c with
      | none => none
      | some c1 =>
        match dayLoopF s 40 c1 with
        | none => none
        | some (.inr c2) => nextLoopB s h fuel c2
        | some (.inl c2) =>
          match hourLoopF s 25 c2 with
          | none => none
          | some (.inr c3) => nextLoopB s h fuel c3
          | some (.inl c3) =>
            match minuteLoopF s 61 c3 with
            | none => none
            | some (.inr c4) => nextLoopB s h fuel c4
            | some (.inl c4) => some (some c4)
    else some none

theorem nextLoopB_eq_nextLoop (s : Schedule) (h : GoTime) :
    ∀ (fuel : Nat) (c : CT), nextLoopB s h fuel c = nextLoop s h fuel c := by
  intro fuel
  induction fuel with
  | zero =>
    intro c
    conv_rhs => rw [nextLoop.eq_def]
    dsimp only
    by_cases hb : beforeH c h
    · rw [hb, if_pos rfl]
      simp [nextLoopB, hb]
    · have hbf : beforeH c h = false := by
        cases hbb : beforeH c h
        · rfl
        · exact absurd hbb hb
      rw [hbf, if_neg (by simp)]
      simp [nextLoopB, hbf]
  | succ n ih =>
    intro c
    conv_rhs => rw [nextLoop.eq_def]
    dsimp only
    by_cases hb : beforeH c h
    case neg =>
      have hbf : beforeH c h = false := by
        cases hbb : beforeH c h
        · rfl
        · exact absurd hbb hb
      rw [hbf, if_neg (by simp)]
      simp [nextLoopB, hbf]
    case pos =>
      rw [hb, if_pos rfl]
      simp only [nextLoopB, hb, if_pos rfl]
      rcases hm : monthLoopF s 12 c with _ | c1
      · rfl
      dsimp only
      rcases hd : dayLoopF s 40 c1 with _ | rd
      · rfl
      rcases rd with c2 | c2
      case inr => exact ih c2
      case inl =>
        dsimp only
        rcases hh : hourLoopF s 25 c2 with _ | rh
        · rfl
        rcases rh with c3 | c3
        case inr => exact ih c3
        case inl =>
          dsimp only
          rcases hmin : minuteLoopF s 61 c3 with _ | rm
          · rfl
          rcases rm with c4 | c4
          case inr => exact ih c4
          case inl => rfl

/-- Evaluate `nextRun` by running the evaluation-friendly loop with a small
concrete fuel. -/
theorem nextRun_evalB (s : Schedule) (t : GoTime) (r : Option CT)
    (h600 : nextLoopB s (horizonOf t) 600 (startCT t) = some r) : nextRun s t = some r := by
  rw [nextLoopB_eq_nextLoop] at h600
  exact nextRun_eval s t r h600

/-! ## Concrete runs of the search loop and schedule decoders -/

set_option maxRecDepth 10000 in
theorem run_every5_a :
    nextRun schedEvery5 ⟨⟨2000, 1, 1, 0, 0⟩, 0, 0⟩ = some (some ⟨⟨2000, 1, 1, 0, 5⟩, 0⟩) :=
  nextRun_evalB _ _ _ (by decide)

set_option maxRecDepth 10000 in
theorem run_every5_b :
    nextRun schedEvery5 ⟨⟨2000, 1, 1, 0, 55⟩, 0, 0⟩ = some (some ⟨⟨2000, 1, 1, 1, 0⟩, 0⟩) :=
  nextRun_evalB _ _ _ (by decide)

set_option maxRecDepth 10000 in
theorem run_every5_loc7 :
    nextRun schedEvery5 ⟨⟨2000, 1, 1, 0, 0⟩, 0, 7⟩ = some (some ⟨⟨2000, 1, 1, 0, 5⟩, 7⟩) :=
  nextRun_evalB _ _ _ (by decide)

set_option maxRecDepth 10000 in
theorem run_13fri_a :
    nextRun sched13Fri ⟨⟨2000, 1, 12, 23, 59⟩, 0, 0⟩ = some (some ⟨⟨2000, 1, 13, 0, 0⟩, 0⟩) :=
  nextRun_evalB _ _ _ (by decide)

set_option maxRecDepth 10000 in
theorem run_13fri_b :
    nextRun sched13Fri ⟨⟨2000, 1, 13, 0, 0⟩, 0, 0⟩ = some (some ⟨⟨2000, 1, 14, 0, 0⟩, 0⟩) :=
  nextRun_evalB _ _ _ (by decide)

set_option maxRecDepth 10000 in
theorem run_feb29_boundary :
    nextRun schedFeb29 ⟨⟨2096, 2, 29, 0, 0⟩, 0, 0⟩ = some (some ⟨⟨2104, 2, 29, 0, 0⟩, 0⟩) :=
  nextRun_evalB _ _ _ (by decide)

/-- Go `t.Weekday()` lands in `0..6`. -/
theorem weekdayOf_bounds (d : DT) : 0 ≤ weekdayOf d ∧ weekdayOf d < 7 :=
  ⟨Int.emod_nonneg _ (by norm_num), Int.emod_lt_of_pos _ (by norm_num)⟩

theorem fullList_matches (f : field) (i : Int) :
    listSpec.matches (fullList f) i = true ↔ (f.min ≤ i ∧ i ≤ f.max) := by
  unfold fullList fullRange listSpec.matches rangeSpec.matches
  simp

/-- Decoding the matches of `0 0 29 2 *`. -/
theorem matchesAt_feb29 (d : DT) (hv : ValidDT d) :
    schedFeb29.matchesAt d = true ↔
      (d.month = 2 ∧ d.day = 29 ∧ d.hour = 0 ∧ d.minute = 0) := by
  obtain ⟨h1, h2, h3, h4, h5, h6⟩ := hv
  obtain ⟨hw1, hw2⟩ := weekdayOf_bounds d
  unfold Schedule.matchesAt Schedule.dayMatches schedFeb29
  dsimp only
  rw [show listSpec.wildcard [(⟨29, 29, 1⟩ : rangeSpec)] dayField = false from by decide]
  rw [show listSpec.wildcard (fullList weekdayField) weekdayField = true from by decide]
  rw [Bool.false_or, if_pos rfl]
  simp only [Bool.and_eq_true]
  rw [singleton_matches_iff, singleton_matches_iff, singleton_matches_iff,
    singleton_matches_iff, fullList_matches]
  unfold weekdayField
  dsimp only
  omega

/-- Decoding the matches of `0 0 31 2 *`. -/
theorem matchesAt_day31feb (d : DT) (hv : ValidDT d) :
    schedDay31Feb.matchesAt d = true ↔
      (d.month = 2 ∧ d.day = 31 ∧ d.hour = 0 ∧ d.minute = 0) := by
  obtain ⟨h1, h2, h3, h4, h5, h6⟩ := hv
  obtain ⟨hw1, hw2⟩ := weekdayOf_bounds d
  unfold Schedule.matchesAt Schedule.dayMatches schedDay31Feb
  dsimp only
  rw [show listSpec.wildcard [(⟨31, 31, 1⟩ : rangeSpec)] dayField = false from by decide]
  rw [show listSpec.wildcard (fullList weekdayField) weekdayField = true from by decide]
  rw [Bool.false_or, if_pos rfl]
  simp only [Bool.and_eq_true]
  rw [singleton_matches_iff, singleton_matches_iff, singleton_matches_iff,
    singleton_matches_iff, fullList_matches]
  unfold weekdayField
  dsimp only
  omega

/-- Decoding the matches of `*/5 * * * *`. -/
theorem matchesAt_every5 (d : DT) (hv : ValidDT d) :
    schedEvery5.matchesAt d = true ↔ (d.minute : Int) % 5 = 0 := by
  obtain ⟨h1, h2, h3, h4, h5, h6⟩ := hv
  obtain ⟨hw1, hw2⟩ := weekdayOf_bounds d
  have hd31 : d.day ≤ 31 := le_trans h4 (daysInMonthL_le (isLeap d.year) d.month)
  unfold Schedule.matchesAt Schedule.dayMatches schedEvery5
  dsimp only
  rw [show listSpec.wildcard (fullList dayField) dayField = true from by decide]
  rw [Bool.true_or, if_pos rfl]
  simp only [Bool.and_eq_true]
  rw [fullList_matches, fullList_matches, fullList_matches, fullList_matches]
  unfold listSpec.matches rangeSpec.matches
  simp only [List.any_cons, List.any_nil, Bool.or_false, Bool.and_eq_true,
    decide_eq_true_eq, beq_iff_eq]
  unfold weekdayField monthField dayField hourField
  dsimp only
  omega

/-- `toMin` is the minute count mod 5 (used for the `*/5` minimality proofs). -/
theorem toMin_mod5 (d : DT) : toMin d % 5 = (d.minute : Int) % 5 := by
  unfold toMin
  omega

instance (f : field) (r : rangeSpec) : Decidable (rangeWF f r) := by
  unfold rangeWF; infer_instance

instance (f : field) (l : listSpec) : Decidable (listWF f l) := by
  unfold listWF; infer_instance

instance (s : Schedule) : Decidable (ScheduleWF s) := by
  unfold ScheduleWF; infer_instance

/-! ## The claims about `Schedule.Next` -/

/-- **C1** (amended).  `Next`'s contract in the form the source satisfies:
(found direction) if `m` is a matching instant strictly after the start of
the minute containing `t` and strictly inside the horizon in Go's
`Before` sense (either strictly below the horizon's minute, or at the
horizon's minute while `t` carries a positive sub-minute part), and `m` is
the earliest matching instant after `t`, then `Next` returns exactly `m`
at minute resolution with `t`'s location; (sentinel direction) if `Next`
returns the zero-time sentinel, then no matching instant after `t` lies
strictly inside the horizon.  The original claim's reading — the sentinel
is returned whenever no match exists within the 8-year horizon — fails
exactly at the horizon boundary, see the counterexample. -/
theorem C1_next_contract (s : Schedule) (t : GoTime) (hwf : ScheduleWF s)
    (hv : ValidDT t.dt) (hz : toMin goZeroDT ≤ toMin t.dt) :
    (∀ m : DT, ValidDT m → s.matchesAt m = true → toMin t.dt < toMin m →
      (toMin m < toMin (horizonOf t).dt ∨ (toMin m = toMin (horizonOf t).dt ∧ 0 < t.sub)) →
      (∀ e : DT, ValidDT e → s.matchesAt e = true → toMin t.dt < toMin e → toMin m ≤ toMin e) →
      s.Next t = ⟨m, 0, t.loc⟩) ∧
    (s.Next t = goZeroTime →
      ∀ m : DT, ValidDT m → s.matchesAt m = true → toMin t.dt < toMin m →
        ¬ (toMin m < toMin (horizonOf t).dt ∨ (toMin m = toMin (horizonOf t).dt ∧ 0 < t.sub))) := by
  constructor
  · intro m hm hmat hafter hwithin hmin
    exact Next_found s t hwf hv m hm hmat hafter hwithin hmin
  · intro hzero m hm hmat hafter
    exact Next_zero_no_match s t hwf hv hz hzero m hm hmat hafter

/-- The found direction of C1 at `*/5 * * * *` from 2000-01-01 00:00: the
claim's own example, with the earliest-match hypothesis discharged by the
mod-5 characterization of the schedule's matches. -/
theorem C1_next_contract_witness :
    schedEvery5.Next ⟨⟨2000, 1, 1, 0, 0⟩, 0, 0⟩ = ⟨⟨2000, 1, 1, 0, 5⟩, 0, 0⟩ := by
  have h := (C1_next_contract schedEvery5 ⟨⟨2000, 1, 1, 0, 0⟩, 0, 0⟩ (by decide) (by decide)
    (by decide)).1
  refine h ⟨2000, 1, 1, 0, 5⟩ (by decide) (by decide) (by decide) (Or.inl (by decide)) ?_
  intro e hev hemat hafter
  have hafter2 : toMin (⟨2000, 1, 1, 0, 0⟩ : DT) < toMin e := hafter
  rw [matchesAt_every5 e hev] at hemat
  have h5 := toMin_mod5 e
  have ht0 : toMin (⟨2000, 1, 1, 0, 0⟩ : DT) % 5 = 0 := by decide
  have hm5 : toMin (⟨2000, 1, 1, 0, 5⟩ : DT) = toMin (⟨2000, 1, 1, 0, 0⟩ : DT) + 5 := by decide
  omega

/-- Refutation of C1 as stated: for `0 0 29 2 *` from 2096-02-29 00:00:00
no matching instant lies strictly within the 8-calendar-year horizon (the
next leap February 29 is 2104-02-29, exactly eight years away, the horizon
itself), yet `Next` returns 2104-02-29 00:00 rather than the sentinel. -/
theorem C1_boundary_counterexample :
    (∀ m : DT, ValidDT m → schedFeb29.matchesAt m = true →
        toMin (⟨2096, 2, 29, 0, 0⟩ : DT) < toMin m →
        ¬ toMin m < toMin (horizonOf ⟨⟨2096, 2, 29, 0, 0⟩, 0, 0⟩).dt) ∧
    schedFeb29.Next ⟨⟨2096, 2, 29, 0, 0⟩, 0, 0⟩ = ⟨⟨2104, 2, 29, 0, 0⟩, 0, 0⟩ ∧
    schedFeb29.Next ⟨⟨2096, 2, 29, 0, 0⟩, 0, 0⟩ ≠ goZeroTime := by
  have hnext : schedFeb29.Next ⟨⟨2096, 2, 29, 0, 0⟩, 0, 0⟩ = ⟨⟨2104, 2, 29, 0, 0⟩, 0, 0⟩ :=
    Next_of_nextRun_some run_feb29_boundary
  refine ⟨?_, hnext, by rw [hnext]; decide⟩
  intro m hv hmat hafter
  rw [matchesAt_feb29 m hv] at hmat
  rcases m with ⟨y, mo, dd, hh, mi⟩
  obtain ⟨h1, h2, h3, h4, h5, h6⟩ := hv
  dsimp only at hmat h4 hafter ⊢
  obtain ⟨hm2, hd29, hh0, hmi0⟩ := hmat
  subst hm2 hd29 hh0 hmi0
  have hleap : isLeap y = true := by
    cases hl : isLeap y
    · rw [show daysInMonth y 2 = 28 from by simp [daysInMonth, daysInMonthL, hl]] at h4
      omega
    · rfl
  have hbm : ∀ b : Bool, daysBeforeMonth b 2 = 31 := fun b => by cases b <;> rfl
  have htm : toMin ⟨y, 2, 29, 0, 0⟩ = (daysBeforeYear y + 59) * 1440 := by
    unfold toMin toDays
    dsimp only
    rw [hbm]
    push_cast
    ring
  have ht0 : toMin ⟨2096, 2, 29, 0, 0⟩ = (daysBeforeYear 2096 + 59) * 1440 := by decide
  have hhz : toMin (horizonOf ⟨⟨2096, 2, 29, 0, 0⟩, 0, 0⟩).dt = (daysBeforeYear 2104 + 59) * 1440 := by
    decide
  rw [htm] at hafter ⊢
  rw [ht0] at hafter
  rw [hhz]
  have hy97 : 2097 ≤ y := by
    by_contra hc
    push_neg at hc
    have := daysBeforeYear_mono_le (show y ≤ 2096 by omega)
    omega
  have hy04 : 2104 ≤ y := by
    by_contra hc
    push_neg at hc
    interval_cases y <;> exact absurd hleap (by decide)
  have := daysBeforeYear_mono_le hy04
  omega

/-- **C2**.  The day/weekday combination rule of `Schedule.dayMatches`: when
the day-of-month list or the weekday list is a wildcard the date must
satisfy both constraints (AND), otherwise either suffices (OR); and the
schedule `0 0 13 * 5` (neither list a wildcard) consequently fires both on
2000-01-13 — a Thursday that is the 13th — and on 2000-01-14 — a Friday. -/
theorem C2_day_weekday_rule (s : Schedule) (d : DT) :
    s.dayMatches d =
      (if (s.day.wildcard dayField || s.weekday.wildcard weekdayField) = true
        then s.day.matches (d.day : Int) && s.weekday.matches (weekdayOf d)
        else s.day.matches (d.day : Int) || s.weekday.matches (weekdayOf d)) ∧
    sched13Fri.Next ⟨⟨2000, 1, 12, 23, 59⟩, 0, 0⟩ = ⟨⟨2000, 1, 13, 0, 0⟩, 0, 0⟩ ∧
    sched13Fri.Next ⟨⟨2000, 1, 13, 0, 0⟩, 0, 0⟩ = ⟨⟨2000, 1, 14, 0, 0⟩, 0, 0⟩ ∧
    weekdayOf ⟨2000, 1, 13, 0, 0⟩ = 4 ∧ weekdayOf ⟨2000, 1, 14, 0, 0⟩ = 5 :=
  ⟨rfl, Next_of_nextRun_some run_13fri_a, Next_of_nextRun_some run_13fri_b,
    by decide, by decide⟩

/-- **C3**.  `Next` terminates on every well-formed schedule: the fueled
search never exhausts its fuel (`nextRun` is never `none`); and on the
unsatisfiable schedule `0 0 31 2 *` — no valid instant matches it — the
search stops at the horizon and returns the zero-time sentinel. -/
theorem C3_termination (s : Schedule) (t : GoTime) (hwf : ScheduleWF s) (hv : ValidDT t.dt) :
    nextRun s t ≠ none ∧
    (∀ d : DT, ValidDT d → schedDay31Feb.matchesAt d = false) ∧
    schedDay31Feb.Next t = goZeroTime := by
  have hnm : ∀ d : DT, ValidDT d → schedDay31Feb.matchesAt d = false := by
    intro d hdv
    cases hmm : schedDay31Feb.matchesAt d
    · rfl
    · exfalso
      rw [matchesAt_day31feb d hdv] at hmm
      obtain ⟨hm2, hd31, _, _⟩ := hmm
      obtain ⟨h1, h2, h3, h4, h5, h6⟩ := hdv
      rw [hm2] at h4
      have hdm : daysInMonth d.year 2 ≤ 29 := by
        unfold daysInMonth daysInMonthL
        cases isLeap d.year <;> dsimp <;> omega
      omega
  refine ⟨nextRun_ne_none s t hwf hv, hnm, ?_⟩
  obtain ⟨⟨r, hr⟩, hsome, _⟩ := nextRun_full schedDay31Feb t (by decide) hv
  rcases r with _ | c
  · exact Next_of_nextRun_none hr
  · exfalso
    obtain ⟨hcv, _, hcmat, _, _⟩ := hsome c hr
    rw [hnm c.dt hcv] at hcmat
    cases hcmat

/-- C3 at a concrete input: the well-fueled search finds `*/5`'s next run,
and the unsatisfiable February-31st schedule returns the sentinel. -/
theorem C3_termination_witness :
    nextRun schedEvery5 ⟨⟨2000, 1, 1, 0, 0⟩, 0, 0⟩ ≠ none ∧
    schedDay31Feb.Next ⟨⟨2000, 1, 1, 0, 0⟩, 0, 0⟩ = goZeroTime := by
  have h := C3_termination schedEvery5 ⟨⟨2000, 1, 1, 0, 0⟩, 0, 0⟩ (by decide) (by decide)
  exact ⟨h.1, h.2.2⟩

/-- **C9**.  Re-evaluation just before a firing is idempotent: if `m` is a
matching instant and `t` is any instant inside the minute immediately
before `m` (so `m − t` is a positive ε of at most one minute and no
schedule boundary — a minute start — lies strictly between), then `Next`
from `t` returns exactly `m` again. -/
theorem C9_idempotent_reevaluation (s : Schedule) (t : GoTime) (hwf : ScheduleWF s)
    (hv : ValidDT t.dt) (m : DT) (hm : ValidDT m) (hmat : s.matchesAt m = true)
    (hprev : toMin t.dt + 1 = toMin m) :
    s.Next t = ⟨m, 0, t.loc⟩ := by
  obtain ⟨_, hlo, _⟩ := horizonOf_spec hv
  refine Next_found s t hwf hv m hm hmat (by omega) (Or.inl (by omega)) ?_
  intro e hev hemat hafter
  omega

/-- C9 at a concrete input: 30 seconds before the `*/5` firing at
2000-01-01 00:05, re-evaluation returns that same firing. -/
theorem C9_idempotent_reevaluation_witness :
    schedEvery5.Next ⟨⟨2000, 1, 1, 0, 4⟩, 30, 7⟩ = ⟨⟨2000, 1, 1, 0, 5⟩, 0, 7⟩ :=
  C9_idempotent_reevaluation schedEvery5 ⟨⟨2000, 1, 1, 0, 4⟩, 30, 7⟩ (by decide) (by decide)
    ⟨2000, 1, 1, 0, 5⟩ (by decide) (by decide) (by decide)

/-- **C10**.  A non-sentinel result of `Next` is expressed in the argument's
location: the search threads `t.Location()` through every candidate, so the
found instant carries `t`'s location tag. -/
theorem C10_location_preserved (s : Schedule) (t : GoTime) (hwf : ScheduleWF s)
    (hv : ValidDT t.dt) (c : CT) (hr : nextRun s t = some (some c)) :
    s.Next t = ⟨c.dt, 0, t.loc⟩ ∧ (s.Next t).loc = t.loc := by
  obtain ⟨_, hsome, _⟩ := nextRun_full s t hwf hv
  obtain ⟨_, hcloc, _, _, _⟩ := hsome c hr
  have h := Next_of_nextRun_some hr
  rw [hcloc] at h
  exact ⟨h, by rw [h]⟩

/-- C10 at a concrete input: from a time tagged with location 7, the found
instant is tagged with location 7 as well. -/
theorem C10_location_preserved_witness :
    schedEvery5.Next ⟨⟨2000, 1, 1, 0, 0⟩, 0, 7⟩ = ⟨⟨2000, 1, 1, 0, 5⟩, 0, 7⟩ :=
  (C10_location_preserved schedEvery5 ⟨⟨2000, 1, 1, 0, 0⟩, 0, 7⟩ (by decide) (by decide)
    ⟨⟨2000, 1, 1, 0, 5⟩, 7⟩ run_every5_loc7).1

/-! ## parse.go: Atoi, string splitting, range/list/schedule/entry parsing -/

/-- Digits of a token to a number; `none` when empty or a non-digit appears
(the failure cases of `strconv.Atoi` in scope here; overflow is out of the
model, integers being unbounded). -/
def digitsVal (cs : List Char) : Option Nat :=
  if cs.isEmpty then none
  else
    cs.foldl
      (fun acc c =>
        match acc with
        | none => none
        | some n => if c.isDigit then some (n * 10 + (c.toNat - 48)) else none)
      (some 0)

/-- Go `strconv.Atoi`: optional sign, then decimal digits. -/
def atoi (s : String) : Option Int :=
  match s.data with
  | '+' :: rest => (digitsVal rest).map Int.ofNat
  | '-' :: rest => (digitsVal rest).map (fun n => -(n : Int))
  | cs => (digitsVal cs).map Int.ofNat

/-- The first split of `strings.SplitN(s, sep, 2)`: text before the first
separator and the remainder, or `none` when the separator is absent. -/
def splitFirst (sep : Char) : List Char → Option (List Char × List Char)
  | [] => none
  | c :: rest =>
    if c = sep then some ([], rest)
    else (splitFirst sep rest).map (fun p => (c :: p.1, p.2))

/-- Go `strings.SplitN(s, sep, 2)` for a one-character separator. -/
def splitN2 (s : String) (sep : Char) : List String :=
  match splitFirst sep s.data with
  | none => [s]
  | some (a, b) => [String.mk a, String.mk b]

/-- Go `strings.Split(s, sep)` for a one-character separator. -/
def splitAll (sep : Char) : List Char → List (List Char)
  | [] => [[]]
  | c :: rest =>
    match splitAll sep rest with
    | [] => [[]]
    | g :: gs => if c = sep then [] :: g :: gs else (c :: g) :: gs

/-- Errors of the crontab parser, one constructor per `fmt.Errorf` site. -/
inductive ParseErr where
  /-- `invalid range (can't parse part after slash)` -/
  | badStep : String → ParseErr
  /-- `invalid range (can't parse start value)` -/
  | badStart : String → ParseErr
  /-- `invalid range (can't parse end value)` -/
  | badEnd : String → ParseErr
  /-- `%s must be between %d and %d` (carries the field name) -/
  | outOfBounds : String → ParseErr
  /-- `wrong number of fields; expected 5` -/
  | wrongFieldCount : ParseErr
  /-- `unknown label %s` -/
  | unknownLabel : String → ParseErr
  /-- Go indexes `line[0]` of an empty line (a runtime panic, reachable only
  by calling `ParseEntry` directly on `""`; `ParseCrontab` filters such
  lines out first). -/
  | emptyLine : ParseErr
deriving DecidableEq, Repr

/-- A token as start or end of a range: the substitution table first, then
`strconv.Atoi`, exactly as both branches of `parseRangeSpec` do. -/
def parseValue (subs : List (String × Int)) (tok : String) : Option Int :=
  match subs.lookup tok with
  | some v => some v
  | none => atoi tok

/-- The step of Go `parseRangeSpec`: the part after the first `/` through
`Atoi` when a slash is present, else the default 1. -/
def parseStep (slashParts : List String) : Except ParseErr Int :=
  match slashParts with
  | [_, p1] =>
    match atoi p1 with
    | none => .error (.badStep p1)
    | some v => .ok v
  | _ => .ok 1

/-- The start/end of Go `parseRangeSpec`: the full field range for `*` or
`?`, else a `start-end` pair (or a single value) resolved through the
substitution table and `Atoi`. -/
def parseStartEnd (f : field) (subs : List (String × Int)) (head : String) :
    Except ParseErr (Int × Int) :=
  if head = "*" || head = "?" then .ok (f.min, f.max)
  else
    let dashParts := splitN2 head '-'
    let d0 := dashParts.headD ""
    match parseValue subs d0 with
    | none => .error (.badStart d0)
    | some start =>
      match dashParts with
      | [_, d1] =>
        match parseValue subs d1 with
        | none => .error (.badEnd d1)
        | some endv => .ok (start, endv)
      | _ => .ok (start, start)

/-- Go `parseRangeSpec`: step after the first `/` (default 1), `*`/`?` or a
`start-end` pair with substitutions, then the `r.valid(field)` bounds check
(which does not constrain the step). -/
def parseRangeSpec (s : String) (f : field) (subs : List (String × Int)) :
    Except ParseErr rangeSpec :=
  let slashParts := splitN2 s '/'
  match parseStep slashParts with
  | .error e => .error e
  | .ok step =>
    match parseStartEnd f subs (slashParts.headD "") with
    | .error e => .error e
    | .ok (start, endv) =>
      let r : rangeSpec := ⟨start, endv, step⟩
      if r.valid f then .ok r else .error (.outOfBounds f.name)

/-- The loop of Go `parseListSpec`: parse each comma-separated part in
order, aborting at the first error. -/
def parseListSpecAux (f : field) (subs : List (String × Int)) :
    List String → Except ParseErr listSpec
  | [] => .ok []
  | p :: rest =>
    match parseRangeSpec p f subs with
    | .error e => .error e
    | .ok r =>
      match parseListSpecAux f subs rest with
      | .error e => .error e
      | .ok rs => .ok (r :: rs)

/-- Go `parseListSpec`. -/
def parseListSpec (s : String) (f : field) (subs : List (String × Int)) :
    Except ParseErr listSpec :=
  parseListSpecAux f subs ((splitAll ',' s.data).map String.mk)

def monthSubstitutions : List (String × Int) :=
  [("jan", 1), ("feb", 2), ("mar", 3), ("apr", 4), ("may", 5), ("jun", 6),
   ("jul", 7), ("aug", 8), ("sep", 9), ("oct", 10), ("nov", 11), ("dec", 12)]

def weekdaySubstitutions : List (String × Int) :=
  [("sun", 0), ("mon", 1), ("tue", 2), ("wed", 3), ("thu", 4), ("fri", 5),
   ("sat", 6), ("7", 0)]

/-- Go `ParseSchedule`: the five-field check, then the five list specs in
order (nil substitutions for minute, hour and day). -/
def ParseSchedule (fields : List String) : Except ParseErr Schedule :=
  if fields.length ≠ 5 then .error ParseErr.wrongFieldCount
  else
    match fields with
    | [f0, f1, f2, f3, f4] =>
      match parseListSpec f0 minuteField [] with
      | .error e => .error e
      | .ok minute =>
        match parseListSpec f1 hourField [] with
        | .error e => .error e
        | .ok hour =>
          match parseListSpec f2 dayField [] with
          | .error e => .error e
          | .ok day =>
            match parseListSpec f3 monthField monthSubstitutions with
            | .error e => .error e
            | .ok month =>
              match parseListSpec f4 weekdayField weekdaySubstitutions with
              | .error e => .error e
              | .ok weekday => .ok ⟨minute, hour, day, month, weekday⟩
    | _ => .error ParseErr.wrongFieldCount

/-- Go `unicode.IsSpace` restricted to the characters relevant here (ASCII
whitespace; the wider Unicode classes do not occur in the claims). -/
def isSpaceChar (c : Char) : Bool :=
  c = ' ' || c = '\t' || c = '\n' || c = '\r'

/-- Modelled from the spec: the vendored `fieldsn.FieldsN(s, n)` package is
not among the repository's files.  Per its documented behaviour (and the
uses in `ParseEntry` together with the repository's tests), it splits `s`
around runs of whitespace into at most `n` fields, the last field holding
the unsplit remainder of the string (trailing whitespace included), and
returns fewer than `n` fields when the input runs out. -/
def fieldsN (s : String) (n : Nat) : List String :=
  (fieldsNAux n s.data).map String.mk
where
  /-- Modelled from the spec: the splitting loop. -/
  fieldsNAux : Nat → List Char → List (List Char)
  | 0, _ => []
  | 1, cs =>
    let cs2 := cs.dropWhile isSpaceChar
    if cs2.isEmpty then [] else [cs2]
  | n + 2, cs =>
    let cs2 := cs.dropWhile isSpaceChar
    if cs2.isEmpty then []
    else
      let f := cs2.takeWhile (fun c => !isSpaceChar c)
      let rest := cs2.dropWhile (fun c => !isSpaceChar c)
      f :: fieldsNAux (n + 1) rest

/-- Go `Entry`. -/
structure Entry where
  schedule : Schedule
  command : String

/-- Modelled from the spec: `FieldsN` allocates its result slice with
capacity `n` over a zeroed backing array, so Go's reslicing `fields[0:5]`
in `ParseEntry` pads a shorter result with empty strings instead of
panicking — the behaviour the repository's own tests rely on
(`ParseEntry("lol")` must return an error, not crash). -/
def padTo5 (l : List String) : List String :=
  l.take 5 ++ List.replicate (5 - l.length) ""

/-- The predefined `@label` schedules, written out as the parses of the
five-field arrays the source feeds to `MustParseSchedule` (none of which
errors, so the panic path is not modelled). -/
def predefinedLabels : List (String × Schedule) :=
  [("@yearly", ⟨[⟨0, 0, 1⟩], [⟨0, 0, 1⟩], [⟨1, 1, 1⟩], [⟨1, 1, 1⟩], fullList weekdayField⟩),
   ("@annually", ⟨[⟨0, 0, 1⟩], [⟨0, 0, 1⟩], [⟨1, 1, 1⟩], [⟨1, 1, 1⟩], fullList weekdayField⟩),
   ("@monthly", ⟨[⟨0, 0, 1⟩], [⟨0, 0, 1⟩], [⟨1, 1, 1⟩], fullList monthField, fullList weekdayField⟩),
   ("@weekly", ⟨[⟨0, 0, 1⟩], [⟨0, 0, 1⟩], fullList dayField, fullList monthField, [⟨0, 0, 1⟩]⟩),
   ("@daily", ⟨[⟨0, 0, 1⟩], [⟨0, 0, 1⟩], fullList dayField, fullList monthField, fullList weekdayField⟩),
   ("@midnight", ⟨[⟨0, 0, 1⟩], [⟨0, 0, 1⟩], fullList dayField, fullList monthField, fullList weekdayField⟩),
   ("@hourly", ⟨[⟨0, 0, 1⟩], fullList hourField, fullList dayField, fullList monthField, fullList weekdayField⟩)]

/-- Go `ParseEntry`: `@label` lines through the label table with the
remainder as command; other lines through `ParseSchedule` on the first
five whitespace-separated fields with the sixth as command. -/
def ParseEntry (line : String) : Except ParseErr Entry :=
  match line.data with
  | [] => .error ParseErr.emptyLine
  | c :: _ =>
    if c = '@' then
      let fields := fieldsN line 2
      let label := fields.headD ""
      match predefinedLabels.lookup label with
      | none => .error (ParseErr.unknownLabel label)
      | some schedule =>
        .ok ⟨schedule, if fields.length > 1 then fields.getD 1 "" else ""⟩
    else
      let fields := fieldsN line 6
      match ParseSchedule (padTo5 fields) with
      | .error e => .error e
      | .ok schedule =>
        .ok ⟨schedule, if fields.length > 5 then fields.getD 5 "" else ""⟩

/-- The loop of Go `ParseCrontab`: left-trim each line, skip blank and `#`
lines, parse the rest in order, aborting at the first error (so an error
leaves no partial entry list). -/
def parseCrontabAux : List (List Char) → Except ParseErr (List Entry)
  | [] => .ok []
  | lcs :: rest =>
    let line := lcs.dropWhile isSpaceChar
    match line with
    | [] => parseCrontabAux rest
    | c :: _ =>
      if c = '#' then parseCrontabAux rest
      else
        match ParseEntry (String.mk line) with
        | .error e => .error e
        | .ok e =>
          match parseCrontabAux rest with
          | .error e2 => .error e2
          | .ok es => .ok (e :: es)

/-- Go `ParseCrontab`. -/
def ParseCrontab (s : String) : Except ParseErr (List Entry) :=
  parseCrontabAux (splitAll '\n' s.data)

deriving instance DecidableEq for Schedule
deriving instance DecidableEq for Entry
deriving instance DecidableEq for Except

/-- `parseRangeSpec` never reports a wrong field count: its errors are the
malformed-token and out-of-bounds ones. -/
theorem parseStep_shape (slashParts : List String) :
    (∃ v, parseStep slashParts = .ok v) ∨
      (∃ p, parseStep slashParts = .error (.badStep p)) := by
  unfold parseStep
  repeat' split
  all_goals simp

theorem parseStartEnd_shape (f : field) (subs : List (String × Int)) (head : String) :
    (∃ p, parseStartEnd f subs head = .ok p) ∨
      (∃ t, parseStartEnd f subs head = .error (.badStart t)) ∨
      (∃ t, parseStartEnd f subs head = .error (.badEnd t)) := by
  unfold parseStartEnd
  dsimp only
  repeat' split
  all_goals simp

theorem parseRangeSpec_ne_wfc (s : String) (f : field) (subs : List (String × Int)) :
    parseRangeSpec s f subs ≠ .error ParseErr.wrongFieldCount := by
  unfold parseRangeSpec
  intro h
  dsimp only at h
  rcases hst : parseStep (splitN2 s '/') with e | step
  · rw [hst] at h
    dsimp only at h
    injection h with h2
    rcases parseStep_shape (splitN2 s '/') with ⟨v, hv⟩ | ⟨p, hp⟩
    · rw [hst] at hv
      cases hv
    · rw [hst] at hp
      injection hp with h3
      rw [h2] at h3
      cases h3
  · rw [hst] at h
    dsimp only at h
    rcases hse : parseStartEnd f subs ((splitN2 s '/').headD "") with e | p
    · rw [hse] at h
      dsimp only at h
      injection h with h2
      rcases parseStartEnd_shape f subs ((splitN2 s '/').headD "") with ⟨q, hq⟩ | ⟨t, ht⟩ | ⟨t, ht⟩
      · rw [hse] at hq
        cases hq
      · rw [hse] at ht
        injection ht with h3
        rw [h2] at h3
        cases h3
      · rw [hse] at ht
        injection ht with h3
        rw [h2] at h3
        cases h3
    · rw [hse] at h
      dsimp only at h
      split at h <;> simp_all

theorem parseListSpecAux_ne_wfc (f : field) (subs : List (String × Int)) :
    ∀ parts, parseListSpecAux f subs parts ≠ .error ParseErr.wrongFieldCount := by
  intro parts
  induction parts with
  | nil => simp [parseListSpecAux]
  | cons p rest ih =>
    unfold parseListSpecAux
    intro h
    rcases hp : parseRangeSpec p f subs with e | r
    · rw [hp] at h
      dsimp only at h
      injection h with h2
      rw [h2] at hp
      exact parseRangeSpec_ne_wfc p f subs hp
    · rw [hp] at h
      dsimp only at h
      rcases hr : parseListSpecAux f subs rest with e2 | rs
      · rw [hr] at h
        dsimp only at h
        injection h with h2
        rw [h2] at hr
        exact ih hr
      · rw [hr] at h
        dsimp only at h
        cases h

theorem parseListSpec_ne_wfc (s : String) (f : field) (subs : List (String × Int)) :
    parseListSpec s f subs ≠ .error ParseErr.wrongFieldCount :=
  parseListSpecAux_ne_wfc f subs _

/-- `ParseSchedule` reports the wrong-field-count error exactly on arrays
that are not five fields long (its field parses never produce it). -/
theorem ParseSchedule_wfc_iff (fields : List String) :
    ParseSchedule fields = .error ParseErr.wrongFieldCount ↔ fields.length ≠ 5 := by
  constructor
  · intro h hlen
    unfold ParseSchedule at h
    rw [if_neg (fun hc => hc hlen)] at h
    rcases fields with _ | ⟨f0, _ | ⟨f1, _ | ⟨f2, _ | ⟨f3, _ | ⟨f4, _ | ⟨f5, rest⟩⟩⟩⟩⟩⟩ <;>
      simp at hlen
    dsimp only at h
    rcases h0 : parseListSpec f0 minuteField [] with e | l0
    · rw [h0] at h
      injection h with h2
      rw [h2] at h0
      exact parseListSpec_ne_wfc f0 minuteField [] h0
    rw [h0] at h
    dsimp only at h
    rcases h1 : parseListSpec f1 hourField [] with e | l1
    · rw [h1] at h
      injection h with h2
      rw [h2] at h1
      exact parseListSpec_ne_wfc f1 hourField [] h1
    rw [h1] at h
    dsimp only at h
    rcases h2 : parseListSpec f2 dayField [] with e | l2
    · rw [h2] at h
      injection h with h3
      rw [h3] at h2
      exact parseListSpec_ne_wfc f2 dayField [] h2
    rw [h2] at h
    dsimp only at h
    rcases h3 : parseListSpec f3 monthField monthSubstitutions with e | l3
    · rw [h3] at h
      injection h with h4
      rw [h4] at h3
      exact parseListSpec_ne_wfc f3 monthField monthSubstitutions h3
    rw [h3] at h
    dsimp only at h
    rcases h4 : parseListSpec f4 weekdayField weekdaySubstitutions with e | l4
    · rw [h4] at h
      injection h with h5
      rw [h5] at h4
      exact parseListSpec_ne_wfc f4 weekdayField weekdaySubstitutions h4
    rw [h4] at h
    dsimp only at h
    cases h
  · intro hlen
    unfold ParseSchedule
    rw [if_pos hlen]

/-- **C7** (amended).  Parse-error handling: `ParseSchedule` returns the
wrong-field-count error exactly when handed an array that is not five
fields long; an `@` line whose label is not predefined errors with the
unknown-label error; an out-of-range value errors naming the field; and
`ParseCrontab` aborts at the first erroneous line with an error result (no
partial entry list).  The original claim's attribution of the
wrong-field-count error to short positional lines is refuted by the
counterexample: `ParseEntry` pads short field lists to five empty-string
fields, which fail with a malformed-field error instead. -/
theorem C7_parse_errors :
    (∀ fields : List String,
      ParseSchedule fields = .error ParseErr.wrongFieldCount ↔ fields.length ≠ 5) ∧
    (∀ (line : String) (cs : List Char), line.data = '@' :: cs →
      predefinedLabels.lookup ((fieldsN line 2).headD "") = none →
      ParseEntry line = .error (.unknownLabel ((fieldsN line 2).headD ""))) ∧
    ParseEntry "60 0 * * *" = .error (.outOfBounds "minute") ∧
    ParseCrontab "0 1 2 3 4 ok\nlol\n0 1 2 3 4 ok" = .error (.badStart "lol") := by
  refine ⟨ParseSchedule_wfc_iff, ?_, by decide, by decide⟩
  intro line cs hdata hlook
  unfold ParseEntry
  rw [hdata]
  dsimp only
  rw [if_pos rfl, hlook]

/-- C7 at concrete inputs: a four-element array is rejected by
`ParseSchedule` with the wrong-field-count error, and an unknown label is
rejected by `ParseEntry` with the unknown-label error. -/
theorem C7_parse_errors_witness :
    ParseSchedule ["0", "1", "2", "3"] = .error ParseErr.wrongFieldCount ∧
    ParseEntry "@lol" = .error (.unknownLabel "@lol") :=
  ⟨(C7_parse_errors.1 ["0", "1", "2", "3"]).mpr (by decide),
    C7_parse_errors.2.1 "@lol" ['l', 'o', 'l'] rfl (by decide)⟩

/-- Refutation of C7 as stated: `"lol"` and `"0 1 2 3"` are non-comment
lines with fewer than five whitespace-separated fields, yet neither yields
the wrong-field-count error — `ParseEntry` reslices the field array to
length five (the missing fields surfacing as empty strings), so both fail
inside the field parse with a malformed-range error instead. -/
theorem C7_short_line_counterexample :
    (fieldsN "lol" 6).length = 1 ∧
    ParseEntry "lol" = .error (.badStart "lol") ∧
    ParseEntry "lol" ≠ .error ParseErr.wrongFieldCount ∧
    (fieldsN "0 1 2 3" 6).length = 4 ∧
    ParseEntry "0 1 2 3" = .error (.badStart "") ∧
    ParseEntry "0 1 2 3" ≠ .error ParseErr.wrongFieldCount := by
  decide

/-- The bounds check `rangeSpec.valid` spelled out. -/
theorem rangeSpec_valid_iff (r : rangeSpec) (f : field) :
    r.valid f = true ↔ (f.min ≤ r.start ∧ r.start ≤ r.endv ∧ r.endv ≤ f.max) := by
  unfold rangeSpec.valid
  simp [and_assoc]

/-- A successful `parseRangeSpec` passed the `r.valid(field)` check. -/
theorem parseRangeSpec_ok_valid (s : String) (f : field) (subs : List (String × Int))
    (r : rangeSpec) (h : parseRangeSpec s f subs = .ok r) : r.valid f = true := by
  unfold parseRangeSpec at h
  dsimp only at h
  rcases hst : parseStep (splitN2 s '/') with e | step
  · rw [hst] at h
    cases h
  rw [hst] at h
  dsimp only at h
  rcases hse : parseStartEnd f subs ((splitN2 s '/').headD "") with e | p
  · rw [hse] at h
    cases h
  rw [hse] at h
  rcases p with ⟨start, endv⟩
  dsimp only at h
  split at h
  case isTrue hvalid =>
    injection h with h2
    rw [h2] at hvalid
    exact hvalid
  case isFalse => cases h

/-- Every range of a successful `parseListSpecAux` passed the check. -/
theorem parseListSpecAux_ok_valid (f : field) (subs : List (String × Int)) :
    ∀ (parts : List String) (l : listSpec), parseListSpecAux f subs parts = .ok l →
      ∀ r ∈ l, r.valid f = true := by
  intro parts
  induction parts with
  | nil =>
    intro l h r hr
    unfold parseListSpecAux at h
    injection h with h2
    rw [← h2] at hr
    cases hr
  | cons p rest ih =>
    intro l h r hr
    unfold parseListSpecAux at h
    rcases hp : parseRangeSpec p f subs with e | r0
    · rw [hp] at h
      cases h
    rw [hp] at h
    dsimp only at h
    rcases haux : parseListSpecAux f subs rest with e | rs
    · rw [haux] at h
      cases h
    rw [haux] at h
    dsimp only at h
    injection h with h2
    rw [← h2] at hr
    cases hr with
    | head => exact parseRangeSpec_ok_valid p f subs _ hp
    | tail _ hr2 => exact ih rs haux _ hr2

/-- The out-of-bounds error always names the field being parsed. -/
theorem parseRangeSpec_oob_name (s : String) (f : field) (subs : List (String × Int))
    (msg : String) (h : parseRangeSpec s f subs = .error (.outOfBounds msg)) :
    msg = f.name := by
  unfold parseRangeSpec at h
  dsimp only at h
  rcases hst : parseStep (splitN2 s '/') with e | step
  · rw [hst] at h
    dsimp only at h
    injection h with h2
    rcases parseStep_shape (splitN2 s '/') with ⟨v, hv⟩ | ⟨p, hp⟩
    · rw [hst] at hv
      cases hv
    · rw [hst] at hp
      injection hp with h3
      rw [h2] at h3
      cases h3
  rw [hst] at h
  dsimp only at h
  rcases hse : parseStartEnd f subs ((splitN2 s '/').headD "") with e | p
  · rw [hse] at h
    dsimp only at h
    injection h with h2
    rcases parseStartEnd_shape f subs ((splitN2 s '/').headD "") with ⟨q, hq⟩ | ⟨t, ht⟩ | ⟨t, ht⟩
    · rw [hse] at hq
      cases hq
    · rw [hse] at ht
      injection ht with h3
      rw [h2] at h3
      cases h3
    · rw [hse] at ht
      injection ht with h3
      rw [h2] at h3
      cases h3
  rw [hse] at h
  rcases p with ⟨start, endv⟩
  dsimp only at h
  split at h
  · cases h
  · injection h with h2
    injection h2 with h3
    exact h3.symm

/-- **C8** (amended).  The bounds part of the invariant holds: every
`rangeSpec` produced by a successful field parse satisfies
`field.min ≤ start ≤ end ≤ field.max` (the `r.valid(field)` check), and a
bounds violation is rejected with an error naming the field.  The step
part of the claimed invariant is refuted by the counterexample: the parser
never validates the step, so `step 0` and negative steps parse
successfully. -/
theorem C8_bounds_invariant (s : String) (f : field) (subs : List (String × Int)) :
    (∀ r : rangeSpec, parseRangeSpec s f subs = .ok r →
      f.min ≤ r.start ∧ r.start ≤ r.endv ∧ r.endv ≤ f.max) ∧
    (∀ l : listSpec, parseListSpec s f subs = .ok l →
      ∀ r ∈ l, f.min ≤ r.start ∧ r.start ≤ r.endv ∧ r.endv ≤ f.max) ∧
    (∀ msg : String, parseRangeSpec s f subs = .error (.outOfBounds msg) → msg = f.name) := by
  refine ⟨?_, ?_, parseRangeSpec_oob_name s f subs⟩
  · intro r h
    exact (rangeSpec_valid_iff r f).mp (parseRangeSpec_ok_valid s f subs r h)
  · intro l h r hr
    exact (rangeSpec_valid_iff r f).mp (parseListSpecAux_ok_valid f subs _ l h r hr)

/-- C8 at a concrete input: the parse of `*/5` in the minute field lands in
bounds. -/
theorem C8_bounds_invariant_witness :
    minuteField.min ≤ (⟨0, 59, 5⟩ : rangeSpec).start ∧
    (⟨0, 59, 5⟩ : rangeSpec).start ≤ (⟨0, 59, 5⟩ : rangeSpec).endv ∧
    (⟨0, 59, 5⟩ : rangeSpec).endv ≤ minuteField.max :=
  (C8_bounds_invariant "*/5" minuteField []).1 ⟨0, 59, 5⟩ (by decide)

/-- Refutation of the step part of C8: the tokens with step suffix 0 and
step suffix negative one parse successfully in the minute field, producing
steps 0 and −1 — `step ≥ 1` is not an invariant of successful parses, and
no step check rejects them. -/
theorem C8_step_counterexample :
    parseRangeSpec "*/0" minuteField [] = .ok ⟨0, 59, 0⟩ ∧
    ¬ 1 ≤ (⟨0, 59, 0⟩ : rangeSpec).step ∧
    parseRangeSpec "*/-1" minuteField [] = .ok ⟨0, 59, -1⟩ ∧
    ¬ 1 ≤ (⟨0, 59, -1⟩ : rangeSpec).step := by
  decide

/-! ## crony.go: the supervisor (`executeCrontab`, `executeEntry`) -/

set_option maxRecDepth 10000 in
theorem run_day31feb :
    nextRun schedDay31Feb ⟨⟨2000, 1, 1, 0, 0⟩, 0, 0⟩ = some none :=
  nextRun_evalB _ _ _ (by decide)

/-- Go `a.Before(b)` at sub-minute resolution. -/
def goBefore (a b : GoTime) : Bool :=
  decide (toMin a.dt < toMin b.dt) ||
    (decide (toMin a.dt = toMin b.dt) && decide (a.sub < b.sub))

/-- The duration `next.Sub(time.Now())` armed by `time.After` at the top of
`executeEntry`'s loop, in sub-minute units (60 per minute).  `time.After`
with a non-positive duration fires immediately. -/
def armDelay (next now : GoTime) : Int :=
  (toMin next.dt - toMin now.dt) * 60 + ((next.sub : Int) - (now.sub : Int))

/-- What the top of `executeEntry`'s loop does when no stop signal is
pending: compute `next := entry.Schedule.Next(now)` — with no check of the
sentinel — and arm `time.After(next.Sub(time.Now()))`. -/
inductive EntryAction where
  | executeNow
  | sleep (d : Int)
deriving DecidableEq, Repr

def entryLoopHead (s : Schedule) (now : GoTime) : EntryAction :=
  if armDelay (s.Next now) now ≤ 0 then .executeNow
  else .sleep (armDelay (s.Next now) now)

/-- State of `executeCrontab`'s loop: the outer
`var stopTime chan time.Time` (`none` is Go's `nil`), a supply of fresh
channel identities, the stop signals delivered so far (channel, cutoff),
and the spawned generations — for each, the channel and the captured `now`
every `executeEntry` task of that generation is seeded with. -/
structure CrontabState where
  outerStop : Option Nat
  nextChan : Nat
  stopsSent : List (Nat × Int)
  generations : List (Nat × Int)
deriving DecidableEq, Repr

/-- One snapshot arriving on `crontabUpdates` (the `select` case of
`executeCrontab`): `now := time.Now()`; `if stopTime != nil { stopTime <-
now }` reads the outer variable; then `stopTime := make(chan time.Time,
1)` — the `:=` declares a new case-scoped variable shadowing the outer
one, so the outer variable is left unchanged (this mirrors the source
text; it is the shadowing itself, not a simplification of the model); the
fresh channel and the captured `now` seed every task spawned for the new
generation. -/
def onSnapshot (st : CrontabState) (now : Int) : CrontabState :=
  let stopsSent :=
    match st.outerStop with
    | some ch => st.stopsSent ++ [(ch, now)]
    | none => st.stopsSent
  { outerStop := st.outerStop
    nextChan := st.nextChan + 1
    stopsSent := stopsSent
    generations := st.generations ++ [(st.nextChan, now)] }

/-- `executeCrontab`'s state on entry: the outer channel variable is nil,
nothing sent, nothing spawned. -/
def executeCrontabInit : CrontabState := ⟨none, 0, [], []⟩

theorem onSnapshot_foldl (times : List Int) :
    ∀ st : CrontabState, st.outerStop = none →
      (times.foldl onSnapshot st).outerStop = none ∧
      (times.foldl onSnapshot st).stopsSent = st.stopsSent ∧
      (times.foldl onSnapshot st).generations.length =
        st.generations.length + times.length := by
  induction times with
  | nil =>
    intro st h
    exact ⟨h, rfl, rfl⟩
  | cons t rest ih =>
    intro st h
    dsimp only [List.foldl]
    have hstep : (onSnapshot st t).outerStop = none ∧
        (onSnapshot st t).stopsSent = st.stopsSent ∧
        (onSnapshot st t).generations.length = st.generations.length + 1 := by
      unfold onSnapshot
      rw [h]
      exact ⟨rfl, rfl, by simp⟩
    obtain ⟨h1, h2, h3⟩ := ih (onSnapshot st t) hstep.1
    refine ⟨h1, h2.trans hstep.2.1, ?_⟩
    rw [h3, hstep.2.2]
    simp
    omega

/-- **C5** (code bug).  `executeCrontab` never delivers a stop signal: the
`stopTime := make(...)` inside the `select` case shadows the outer
`var stopTime` declared before the loop, so the outer variable stays nil
forever, the `if stopTime != nil` guard never fires, and after any
sequence of snapshots no stop signal has been sent while every generation
has been spawned — the previous generation is never stopped before (or
after) the next one starts, contradicting the claimed ordering guarantee. -/
theorem C5_stop_never_delivered (times : List Int) :
    (times.foldl onSnapshot executeCrontabInit).stopsSent = [] ∧
    (times.foldl onSnapshot executeCrontabInit).generations.length = times.length ∧
    (times.foldl onSnapshot executeCrontabInit).outerStop = none := by
  obtain ⟨h1, h2, h3⟩ := onSnapshot_foldl times executeCrontabInit rfl
  refine ⟨h2, ?_, h1⟩
  rw [h3]
  simp [executeCrontabInit]

/-- **C4** (code bug).  `executeEntry` does not check `Next`'s sentinel:
for the unsatisfiable schedule `0 0 31 2 *`, `Next` returns the zero time,
the armed duration `next.Sub(time.Now())` is hugely negative, and
`time.After` fires immediately — the loop head executes the command at
once instead of never invoking it. -/
theorem C4_sentinel_fires :
    schedDay31Feb.Next ⟨⟨2000, 1, 1, 0, 0⟩, 0, 0⟩ = goZeroTime ∧
    armDelay goZeroTime ⟨⟨2000, 1, 1, 0, 0⟩, 0, 0⟩ < 0 ∧
    entryLoopHead schedDay31Feb ⟨⟨2000, 1, 1, 0, 0⟩, 0, 0⟩ = .executeNow := by
  have hz : schedDay31Feb.Next ⟨⟨2000, 1, 1, 0, 0⟩, 0, 0⟩ = goZeroTime :=
    Next_of_nextRun_none run_day31feb
  refine ⟨hz, by decide, ?_⟩
  unfold entryLoopHead
  rw [hz]
  rw [if_pos (by decide)]

/-- The two events `executeEntry`'s `select` can wake on. -/
inductive EntryEv where
  | timerFired
  | stopSignal (tcut : GoTime)
deriving DecidableEq, Repr

/-- A single task's observable state: its schedule baseline `now`, how many
times it has executed the command, and whether it has returned. -/
structure EntryTaskState where
  now : GoTime
  execs : Nat
  returned : Bool
deriving DecidableEq, Repr

/-- One reaction of `executeEntry`'s loop to an event, `wall` being the
`time.Now()` read after a timer execution.  Timer case: run the command
once and loop with the new wall-clock baseline.  Stop case with cutoff
`tcut` (the source first re-sends `tcut` on the buffered channel for
sibling tasks, invisible in this single-task state): if `tcut.Before(next)`
return without executing, else run the command one final time and return.
A returned task reacts to nothing. -/
def entryReact (s : Schedule) (st : EntryTaskState) (ev : EntryEv) (wall : GoTime) :
    EntryTaskState :=
  if st.returned then st
  else
    match ev with
    | .timerFired => ⟨wall, st.execs + 1, false⟩
    | .stopSignal tcut =>
      if goBefore tcut (s.Next st.now) then ⟨st.now, st.execs, true⟩
      else ⟨st.now, st.execs + 1, true⟩

/-- **C6**.  The stop branch honors a due run and never drops or doubles
it: on a stop signal with cutoff `tcut`, a running task performs exactly
one final execution when `tcut` has reached or passed its pending `next`
(`tcut.Before(next)` false), performs none when `tcut` is strictly before
`next`, returns in both cases, and once returned reacts to no further
event. -/
theorem C6_stop_honors_due (s : Schedule) (st : EntryTaskState) (tcut wall : GoTime)
    (hrun : st.returned = false) :
    (goBefore tcut (s.Next st.now) = false →
      entryReact s st (.stopSignal tcut) wall = ⟨st.now, st.execs + 1, true⟩) ∧
    (goBefore tcut (s.Next st.now) = true →
      entryReact s st (.stopSignal tcut) wall = ⟨st.now, st.execs, true⟩) ∧
    (entryReact s st (.stopSignal tcut) wall).returned = true ∧
    (∀ (ev : EntryEv) (w2 : GoTime),
      entryReact s (entryReact s st (.stopSignal tcut) wall) ev w2 =
        entryReact s st (.stopSignal tcut) wall) := by
  have hres : entryReact s st (.stopSignal tcut) wall =
      if goBefore tcut (s.Next st.now) then (⟨st.now, st.execs, true⟩ : EntryTaskState)
      else ⟨st.now, st.execs + 1, true⟩ := by
    unfold entryReact
    rw [hrun]
    rfl
  cases hb : goBefore tcut (s.Next st.now)
  · rw [hb, if_neg (by simp)] at hres
    refine ⟨fun _ => hres, fun hcontra => ?_, by rw [hres], ?_⟩
    · cases hcontra
    · intro ev w2
      rw [hres]
      rfl
  · rw [hb, if_pos rfl] at hres
    refine ⟨fun hcontra => ?_, fun _ => hres, by rw [hres], ?_⟩
    · cases hcontra
    · intro ev w2
      rw [hres]
      rfl

/-- C6 at a concrete input: a running `*/5` task receiving a stop signal
returns. -/
theorem C6_stop_honors_due_witness :
    (entryReact schedEvery5 ⟨⟨⟨2000, 1, 1, 0, 0⟩, 0, 0⟩, 0, false⟩
        (.stopSignal ⟨⟨1, 1, 1, 0, 0⟩, 0, 0⟩) ⟨⟨2000, 1, 1, 0, 1⟩, 0, 0⟩).returned = true :=
  (C6_stop_honors_due schedEvery5 ⟨⟨⟨2000, 1, 1, 0, 0⟩, 0, 0⟩, 0, false⟩
    ⟨⟨1, 1, 1, 0, 0⟩, 0, 0⟩ ⟨⟨2000, 1, 1, 0, 1⟩, 0, 0⟩ rfl).2.2.1
